import Mathlib

/-!
Verification of the hybrid retrieval and ingestion pipeline of the
`backend-chatbot` FastAPI service (`app/services/parser.py`,
`app/services/opensearch.py`, `app/services/hybrid_retriever.py`,
`app/services/retriever.py`, `app/main.py`, `app/config.py`).

Python strings are modelled as `List Char`, Python floats as `ℚ` (the
claims under study do not hinge on rounding), fallible calls as
`Except Unit`.
-/

/-- The ASCII whitespace characters recognised by Python's `str.strip()`. -/
def pyIsSpace (c : Char) : Bool :=
  c = ' ' || c = '\t' || c = '\n' || c = '\x0d' || c = '\x0b' || c = '\x0c'

/-- Python `str.strip()`: drop whitespace from both ends. -/
def pyStrip (l : List Char) : List Char :=
  ((l.dropWhile pyIsSpace).reverse.dropWhile pyIsSpace).reverse

/-- `models.py DocumentChunk`: text, 0-based index, character offsets. -/
structure DocumentChunk where
  text : List Char
  index : Nat
  start_char : Nat
  end_char : Nat
  deriving Repr, DecidableEq

/-- One rightward scan of `text` keeping the last index `i` with
`start ≤ i < stop` and `text[i] = ' '` — Python `text.rfind(' ', start, stop)`
(which searches the slice `[start, stop)`, `-1` mapped to `none`). -/
def rfindSpaceAux : List Char → Nat → Nat → Nat → Option Nat → Option Nat
  | [], _, _, _, acc => acc
  | c :: cs, i, start, stop, acc =>
      rfindSpaceAux cs (i + 1) start stop
        (if start ≤ i ∧ i < stop ∧ c = ' ' then some i else acc)

def rfindSpace (t : List Char) (start stop : Nat) : Option Nat :=
  rfindSpaceAux t 0 start stop none

/-- `parser.py _chunk_text` lines 553-563: the end of the chunk starting at
`start` — `start + size`, pulled back to the last space strictly after
`start` when that is not already the end of the text. -/
def chunkEnd (size : Nat) (t : List Char) (start : Nat) : Nat :=
  let e0 := start + size
  if e0 < t.length then
    match rfindSpace t start e0 with
    | some ls => if start < ls then ls else e0
    | none => e0
  else t.length

/-- `parser.py _chunk_text` lines 583-586: next start is `end - overlap`,
snapped forward to `end` when that would not pass the previous chunk's
start (which is the current `start`, a chunk being emitted every
iteration).  Natural subtraction agrees with Python here because both
sides snap whenever `end - overlap ≤ start`. -/
def nextStart (ov start e : Nat) : Nat :=
  if e - ov ≤ start then e else e - ov

/-- `parser.py _chunk_text` line 567: the stored chunk text is the stripped
slice `text[start:end]` prefixed with `filename - Chunk index: `. -/
def chunkLabel (idx : Nat) : List Char :=
  (" - Chunk ").toList ++ Nat.toDigits 10 idx ++ (": ").toList

def mkChunk (fn t : List Char) (idx start e : Nat) : DocumentChunk :=
  { text := fn ++ chunkLabel idx ++ pyStrip ((t.drop start).take (e - start))
    index := idx
    start_char := start
    end_char := e }

/-- The `while start < len(text)` loop of `parser.py _chunk_text`
(lines 552-586), fuel-indexed; the prefixed chunk text is never empty, so
the `if chunk_text` guard always emits.  `chunkLoop_fuel` below shows the
fuel never runs out for `0 < size` once it reaches `t.length - start`. -/
def chunkLoop (fn : List Char) (size ov : Nat) (t : List Char) :
    Nat → Nat → Nat → List DocumentChunk
  | 0, _, _ => []
  | fuel + 1, start, idx =>
      if start < t.length then
        let e := chunkEnd size t start
        if t.length ≤ e then [mkChunk fn t idx start e]
        else mkChunk fn t idx start e :: chunkLoop fn size ov t fuel (nextStart ov start e) (idx + 1)
      else []

/-- `parser.py _chunk_text`: empty or whitespace-only text yields no
chunks; otherwise the text is stripped and the loop runs (fuel
`length` suffices, by `chunkText_fuel_irrelevant`). -/
def chunkTextFuel (size ov : Nat) (fn text : List Char) (fuel : Nat) : List DocumentChunk :=
  let t := pyStrip text
  if t = [] then [] else chunkLoop fn size ov t fuel 0 0

def chunkText (size ov : Nat) (fn text : List Char) : List DocumentChunk :=
  chunkTextFuel size ov fn text (pyStrip text).length

/-! ## Retrieval data model -/

/-- One record of the `documents` index, as mapped in
`opensearch.py OpenSearchService.__init__` and denormalised per the spec's
EmbeddingRecord. -/
structure EmbeddingRecord where
  document_id : String
  chunk_index : Nat
  chunk_text : String
  division_id : String
  filename : String
  is_active : Bool
  deriving Repr, DecidableEq

/-- Modelled from the spec: `OpenSearchResult` is imported from
`app.models` by `opensearch.py` and `hybrid_retriever.py` but `models.py`
does not declare it; its fields are those passed at its call sites
(`opensearch.py` lines 103 and 144-152). -/
structure OpenSearchResult where
  score : ℚ
  chunk_text : String
  chunk_index : Nat
  filename : String
  is_active : Bool
  document_id : String
  division_id : String
  deriving Repr, DecidableEq

/-- `models.py SimilarChunk`: the canonical similarity-result contract
(lower `distance` is more similar). -/
structure SimilarChunk where
  chunk_text : String
  chunk_index : Nat
  filename : String
  distance : ℚ
  deriving Repr, DecidableEq

/-! ## The index backend (external collaborator)

`opensearch.py search_similar` and `search_similar_vector` send a bool
query whose `filter` clauses are `term is_active = true` and
`term division_id = str(division_id)`, and whose `must` clause only
scores (BM25 text match resp. kNN).  Modelled from the spec (§6: the
index backend is external, reachable only through its query interface):
the backend returns the `top_k` stored records best ranked by an opaque
scoring function among those satisfying every `filter` clause. -/

def insertDescBy {α : Type} (f : α → ℚ) (a : α) : List α → List α
  | [] => [a]
  | x :: xs => if f a ≤ f x then x :: insertDescBy f a xs else a :: x :: xs

/-- Sort descending by `f` (insertion sort; order details are irrelevant
to the claims, which only use membership). -/
def sortDescBy {α : Type} (f : α → ℚ) : List α → List α
  | [] => []
  | x :: xs => insertDescBy f x (sortDescBy f xs)

def recordMatchesFilters (d : String) (r : EmbeddingRecord) : Bool :=
  r.is_active && r.division_id == d

def osHits (index : List EmbeddingRecord) (score : EmbeddingRecord → ℚ)
    (d : String) (topK : Nat) : List EmbeddingRecord :=
  (sortDescBy score (index.filter (recordMatchesFilters d))).take topK

/-- `opensearch.py` line 103: a hit is rebuilt into an `OpenSearchResult`
from `_score` and the stored `_source` fields. -/
def toOsResult (score : EmbeddingRecord → ℚ) (r : EmbeddingRecord) : OpenSearchResult :=
  { score := score r
    chunk_text := r.chunk_text
    chunk_index := r.chunk_index
    filename := r.filename
    is_active := r.is_active
    document_id := r.document_id
    division_id := r.division_id }

/-- `opensearch.py search_similar` (BM25 branch): filtered, scored hits. -/
def searchSimilar (index : List EmbeddingRecord) (score : EmbeddingRecord → ℚ)
    (d : String) (topK : Nat) : List OpenSearchResult :=
  (osHits index score d topK).map (toOsResult score)

/-- `opensearch.py search_similar_vector` (kNN branch): same filters,
kNN scoring; well-formed hits are rebuilt field by field
(lines 139-156). -/
def searchSimilarVector (index : List EmbeddingRecord) (score : EmbeddingRecord → ℚ)
    (d : String) (topK : Nat) : List OpenSearchResult :=
  (osHits index score d topK).map (toOsResult score)

/-! ## Hybrid retriever (`hybrid_retriever.py`) -/

/-- `hybrid_retriever.py __init__`: weights are renormalised
proportionally when they do not sum to 1. -/
structure Weights where
  vector_weight : ℚ
  bm25_weight : ℚ
  deriving Repr, DecidableEq

def mkWeights (vw bw : ℚ) : Weights :=
  if vw + bw = 1 then ⟨vw, bw⟩ else ⟨vw / (vw + bw), bw / (vw + bw)⟩

/-- The production instance `HybridRetriever()` (defaults 0.7 / 0.3). -/
def defaultWeights : Weights := mkWeights (7/10) (3/10)

/-- `_get_chunk_id` (line 268): dense-branch identity key
`f"{chunk.filename}_{chunk.chunk_index}"`. -/
def getChunkId (c : SimilarChunk) : String :=
  c.filename ++ "_" ++ toString c.chunk_index

/-- `_get_opensearch_chunk_id` (line 272): lexical-branch identity key
`f"{result.document_id}_{result.chunk_index}"`. -/
def getOpenSearchChunkId (r : OpenSearchResult) : String :=
  r.document_id ++ "_" ++ toString r.chunk_index

/-- One value of `chunk_map` (lines 170-211); an absent rank
(`float('inf')`) is `none`. -/
structure ChunkEntry where
  chunk : SimilarChunk
  vector_score : ℚ
  vector_rank : Option Nat
  bm25_score : ℚ
  bm25_rank : Option Nat
  deriving Repr, DecidableEq

abbrev ChunkMap := List (String × ChunkEntry)

/-- Python dict assignment: replace in place when the key exists,
else append. -/
def dictSet (m : ChunkMap) (k : String) (e : ChunkEntry) : ChunkMap :=
  match m with
  | [] => [(k, e)]
  | (k0, e0) :: rest =>
      if k0 = k then (k0, e) :: rest else (k0, e0) :: dictSet rest k e

def lookupEntry (m : ChunkMap) (k : String) : Option ChunkEntry :=
  match m with
  | [] => none
  | (k0, e0) :: rest => if k0 = k then some e0 else lookupEntry rest k

def containsKey (m : ChunkMap) (k : String) : Bool :=
  (lookupEntry m k).isSome

/-- Lines 172-183: the vector loop fills `chunk_map` with 1-based ranks
and `vector_score = 1/(1+distance)`. -/
def addVectorAux : List SimilarChunk → Nat → ChunkMap → ChunkMap
  | [], _, m => m
  | c :: cs, i, m =>
      addVectorAux cs (i + 1)
        (dictSet m (getChunkId c)
          { chunk := c
            vector_score := 1 / (1 + c.distance)
            vector_rank := some (i + 1)
            bm25_score := 0
            bm25_rank := none })

/-- Lines 196-202: an `OpenSearchResult` reaching the map only through
the lexical branch is converted to a `SimilarChunk` with
`distance = 1/(1+score)`. -/
def osToSimilar (r : OpenSearchResult) : SimilarChunk :=
  { chunk_text := r.chunk_text
    chunk_index := r.chunk_index
    filename := r.filename
    distance := 1 / (1 + r.score) }

def setBm25 : ChunkMap → String → ℚ → Nat → ChunkMap
  | [], _, _, _ => []
  | (k0, e0) :: rest, k, score, rank =>
      if k0 = k then
        (k0, { e0 with bm25_score := score, bm25_rank := some rank }) :: setBm25 rest k score rank
      else (k0, e0) :: setBm25 rest k score rank

/-- Lines 186-211: the BM25 loop updates an existing entry in place or
appends a converted one. -/
def addBm25Aux : List OpenSearchResult → Nat → ChunkMap → ChunkMap
  | [], _, m => m
  | r :: rs, i, m =>
      let k := getOpenSearchChunkId r
      let m2 :=
        if containsKey m k then setBm25 m k r.score (i + 1)
        else m ++ [(k, { chunk := osToSimilar r
                         vector_score := 0
                         vector_rank := none
                         bm25_score := r.score
                         bm25_rank := some (i + 1) })]
      addBm25Aux rs (i + 1) m2

def buildChunkMap (v : List SimilarChunk) (b : List OpenSearchResult) : ChunkMap :=
  addBm25Aux b 0 (addVectorAux v 0 [])

/-- `_normalize_rank_score` (lines 274-289): `0` for an absent rank or an
empty branch, else the reciprocal rank `1/rank`. -/
def normalizeRankScore (rank : Option Nat) (total : Nat) : ℚ :=
  match rank with
  | none => 0
  | some r => if total = 0 then 0 else 1 / (r : ℚ)

/-- Lines 217-228: the fused score of one `chunk_map` entry. -/
def hybridScore (W : Weights) (e : ChunkEntry) (vTotal bTotal : Nat) : ℚ :=
  W.vector_weight * normalizeRankScore e.vector_rank vTotal +
    W.bm25_weight * normalizeRankScore e.bm25_rank bTotal

/-- Lines 214-248 had `settings.result_threshold` existed with value `θ`:
entries below the threshold are skipped, the rest are paired with their
fused score and rebuilt with `distance = 1/(1+score)`. -/
def combineCandidates (W : Weights) (θ : ℚ) (v : List SimilarChunk)
    (b : List OpenSearchResult) : List (ℚ × SimilarChunk) :=
  (buildChunkMap v b).filterMap (fun p =>
    let s := hybridScore W p.2 v.length b.length
    if s < θ then none
    else some (s, { chunk_text := p.2.chunk.chunk_text
                    chunk_index := p.2.chunk.chunk_index
                    filename := p.2.chunk.filename
                    distance := 1 / (1 + s) }))

/-- `_combine_results` (lines 151-264).  `config.py` defines no
`result_threshold` field, so in the program as written the comparison at
line 230 raises `AttributeError` on the first loop iteration and the
`except` at line 262 returns `[]`; the `thresholdSetting` argument keeps
both worlds: `none` is the configuration in the source tree, `some θ`
the behaviour had the setting existed. -/
def combineResults (W : Weights) (thresholdSetting : Option ℚ)
    (v : List SimilarChunk) (b : List OpenSearchResult) (topK : Nat) : List SimilarChunk :=
  match thresholdSetting with
  | none =>
      -- line 230 raises AttributeError when the loop body runs; when the
      -- map is empty the loop is skipped and the result is [] as well
      []
  | some θ =>
      ((sortDescBy Prod.fst (combineCandidates W θ v b)).take topK).map Prod.snd

/-! ## The search entry point and its error handling

The only fallible points in `HybridRetriever.search` are the two backend
calls; every layer above them catches: `search_similar` /
`search_similar_vector` return `[]` on any exception, `_vector_search` /
`_opensearch_search` return `[]` on any exception,
`asyncio.gather(..., return_exceptions=True)` plus the `isinstance`
checks replace a raising branch by `[]`, `_combine_results` returns `[]`
from its own handler, and the outer `try` of `search` returns `[]`.  A
backend call outcome is an `Except Unit` value. -/

/-- `_vector_search` (lines 101-135): kNN results are converted to
`SimilarChunk` with `distance = 1/(1+score)`; an exception anywhere in
the branch gives `[]`. -/
def vectorBranch (call : Except Unit (List OpenSearchResult)) : List SimilarChunk :=
  match call with
  | .error _ => []
  | .ok rs => rs.map osToSimilar

/-- `_opensearch_search` (lines 137-149): the BM25 results, `[]` on
exception. -/
def lexicalBranch (call : Except Unit (List OpenSearchResult)) : List OpenSearchResult :=
  match call with
  | .error _ => []
  | .ok rs => rs

/-- `HybridRetriever.search` (lines 41-99): gather both branches,
degrade a raising branch to `[]`, fuse; the result is total — the outer
handler can only propagate `Except.ok`. -/
def hybridSearch (W : Weights) (thresholdSetting : Option ℚ)
    (vc bc : Except Unit (List OpenSearchResult)) (topK : Nat) :
    Except Unit (List SimilarChunk) :=
  .ok (combineResults W thresholdSetting (vectorBranch vc) (lexicalBranch bc) topK)

/-- `retriever.py _retrieve_similar_chunks_fallback` (lines 212-251):
vector-only search against the relational store, `[]` on exception. -/
def fallbackRetrieve (db : Except Unit (List SimilarChunk)) : List SimilarChunk :=
  match db with
  | .error _ => []
  | .ok l => l

/-- `retriever.py _retrieve_similar_chunks_hybrid` (lines 175-210): the
vector-only fallback runs only when the `hybrid_retriever.search` call
itself raises. -/
def retrieveSimilarChunksHybrid (searchOutcome : Except Unit (List SimilarChunk))
    (db : Except Unit (List SimilarChunk)) : List SimilarChunk :=
  match searchOutcome with
  | .ok l => l
  | .error _ => fallbackRetrieve db

/-- The composed retrieval operation of `retriever.py`:
`_retrieve_similar_chunks_hybrid` applied to the actual
`HybridRetriever.search`. -/
def retrieveChunks (W : Weights) (thresholdSetting : Option ℚ)
    (vc bc : Except Unit (List OpenSearchResult)) (topK : Nat)
    (db : Except Unit (List SimilarChunk)) : List SimilarChunk :=
  retrieveSimilarChunksHybrid (hybridSearch W thresholdSetting vc bc topK) db

/-! ## `parse_document` and the parsing stage of the pipeline -/

/-- `parser.py parse_document` (lines 137-195) with the per-type
extractors and `text_cleaner.clean_document_text` abstracted as
parameters: an extraction exception propagates to the outer handler
(`None`); empty or whitespace-only text — before or after cleaning —
yields zero chunks, not a failure. -/
def parseDocument (extract : Except Unit (List Char)) (clean : List Char → List Char)
    (size ov : Nat) (fn : List Char) : Option (List DocumentChunk) :=
  match extract with
  | .error _ => none
  | .ok text =>
      if pyStrip text = [] then some []
      else
        let cleaned := clean text
        if pyStrip cleaned = [] then some []
        else some (chunkText size ov fn cleaned)

/-- `main.py process_document_parsing` lines 286-293: the status written
after the parse step.  `if not chunks:` is a Python falsiness test, so an
empty chunk list takes the failure branch exactly like `None`. -/
def statusAfterParse (chunks : Option (List DocumentChunk)) : String :=
  match chunks with
  | none => "parsing_failed"
  | some [] => "parsing_failed"
  | some (_ :: _) => "parsed"

/-! ## Otsu binarisation (`parser.py _preprocess_for_ocr`, lines 73-103)

Pixels are naturals `≤ 255`; `np.histogram(..., bins=256, range=(0,255))`
on such data counts each intensity exactly (intensity `k < 255` falls in
bin `k` since `k ≤ k·256/255 < k+1`, and `255` in the last bin). -/

def histCount (img : List Nat) (t : Nat) : Nat :=
  (img.filter (fun v => v = t)).length

/-- `wB` after processing `t = 0, ..., k-1`: pixels of intensity `< k`. -/
def cumWeight (hist : Nat → Nat) (k : Nat) : Nat :=
  (Finset.range k).sum hist

/-- `sumB` after processing `t = 0, ..., k-1`. -/
def cumIntensity (hist : Nat → Nat) (k : Nat) : Nat :=
  (Finset.range k).sum (fun i => i * hist i)

/-- The inter-class variance the loop computes for a candidate threshold
`t` (classes `≤ t` and `> t`), as exact rational arithmetic; `0` when a
class is empty (the loop skips those `t`). -/
def betweenVar (hist : Nat → Nat) (total sumTotal t : Nat) : ℚ :=
  let wB := cumWeight hist (t + 1)
  let wF := total - wB
  if wB = 0 ∨ wF = 0 then 0
  else
    let sumB := cumIntensity hist (t + 1)
    let mB : ℚ := (sumB : ℚ) / (wB : ℚ)
    let mF : ℚ := ((sumTotal : ℚ) - (sumB : ℚ)) / (wF : ℚ)
    (wB : ℚ) * (wF : ℚ) * (mB - mF) ^ 2

/-- The loop state of `parser.py` lines 79-96 (`broken` once the `break`
at `wF == 0` fired; after it the remaining iterations do nothing). -/
structure OtsuState where
  wB : Nat
  sumB : Nat
  maxVar : ℚ
  threshold : Nat
  broken : Bool
  deriving Repr, DecidableEq

def otsuInit : OtsuState := ⟨0, 0, 0, 127, false⟩

/-- One iteration of the loop body for candidate `t`. -/
def otsuStep (hist : Nat → Nat) (total sumTotal : Nat) (s : OtsuState) (t : Nat) : OtsuState :=
  if s.broken then s
  else
    let wB := s.wB + hist t
    if wB = 0 then { s with wB := wB }
    else if total - wB = 0 then { s with wB := wB, broken := true }
    else
      let wF := total - wB
      let sumB := s.sumB + t * hist t
      let mB : ℚ := (sumB : ℚ) / (wB : ℚ)
      let mF : ℚ := ((sumTotal : ℚ) - (sumB : ℚ)) / (wF : ℚ)
      let v : ℚ := (wB : ℚ) * (wF : ℚ) * (mB - mF) ^ 2
      if s.maxVar < v then ⟨wB, sumB, v, t, false⟩
      else ⟨wB, sumB, s.maxVar, s.threshold, false⟩

def otsuFold (hist : Nat → Nat) (total sumTotal : Nat) : OtsuState :=
  (List.range 256).foldl (otsuStep hist total sumTotal) otsuInit

/-- The threshold `_preprocess_for_ocr` selects for an image. -/
def otsuThreshold (img : List Nat) : Nat :=
  (otsuFold (histCount img) img.length (cumIntensity (histCount img) 256)).threshold

/-- Line 97: `binary = (np_img > threshold) * 255`. -/
def binarize (img : List Nat) (θ : Nat) : List Nat :=
  img.map (fun v => if θ < v then 255 else 0)

def countVal (l : List Nat) (x : Nat) : Nat :=
  (l.filter (fun v => v = x)).length

/-- Lines 98-102: invert when black pixels outnumber white. -/
def ensureDarkOnLight (binary : List Nat) : List Nat :=
  if countVal binary 255 < countVal binary 0 then binary.map (fun v => 255 - v) else binary

/-- The binary image the preprocessor passes on to sharpening/deskew. -/
def otsuBinaryImage (img : List Nat) : List Nat :=
  ensureDarkOnLight (binarize img (otsuThreshold img))

/-! ## Generic lemmas -/

theorem mem_insertDescBy {α : Type} (f : α → ℚ) (a x : α) (l : List α) :
    x ∈ insertDescBy f a l ↔ x = a ∨ x ∈ l := by
  induction l with
  | nil => simp [insertDescBy]
  | cons y ys ih =>
      by_cases h : f a ≤ f y
      · simp only [insertDescBy, if_pos h, List.mem_cons, ih]
        tauto
      · simp only [insertDescBy, if_neg h, List.mem_cons]

theorem mem_sortDescBy {α : Type} (f : α → ℚ) (x : α) (l : List α) :
    x ∈ sortDescBy f l ↔ x ∈ l := by
  induction l with
  | nil => simp [sortDescBy]
  | cons y ys ih => simp [sortDescBy, mem_insertDescBy, ih]

theorem mem_osHits (index : List EmbeddingRecord) (score : EmbeddingRecord → ℚ)
    (d : String) (topK : Nat) (r : EmbeddingRecord) (h : r ∈ osHits index score d topK) :
    r ∈ index ∧ r.is_active = true ∧ r.division_id = d := by
  have h1 : r ∈ sortDescBy score (index.filter (recordMatchesFilters d)) :=
    List.mem_of_mem_take h
  have h2 : r ∈ index.filter (recordMatchesFilters d) := (mem_sortDescBy _ _ _).mp h1
  have h3 := List.mem_filter.mp h2
  refine ⟨h3.1, ?_, ?_⟩
  · have := h3.2
    simp [recordMatchesFilters] at this
    exact this.1
  · have := h3.2
    simp [recordMatchesFilters] at this
    exact this.2

theorem mem_searchSimilar (index : List EmbeddingRecord) (score : EmbeddingRecord → ℚ)
    (d : String) (topK : Nat) (res : OpenSearchResult)
    (h : res ∈ searchSimilar index score d topK) :
    ∃ rec, rec ∈ index ∧ rec.is_active = true ∧ rec.division_id = d ∧
      res = toOsResult score rec := by
  obtain ⟨rec, hrec, hres⟩ := List.mem_map.mp h
  obtain ⟨h1, h2, h3⟩ := mem_osHits index score d topK rec hrec
  exact ⟨rec, h1, h2, h3, hres.symm⟩

theorem mem_searchSimilarVector (index : List EmbeddingRecord) (score : EmbeddingRecord → ℚ)
    (d : String) (topK : Nat) (res : OpenSearchResult)
    (h : res ∈ searchSimilarVector index score d topK) :
    ∃ rec, rec ∈ index ∧ rec.is_active = true ∧ rec.division_id = d ∧
      res = toOsResult score rec := by
  obtain ⟨rec, hrec, hres⟩ := List.mem_map.mp h
  obtain ⟨h1, h2, h3⟩ := mem_osHits index score d topK rec hrec
  exact ⟨rec, h1, h2, h3, hres.symm⟩

/-! ## Provenance through `chunk_map` and `_combine_results` -/

theorem mem_dictSet (m : ChunkMap) (k : String) (e : ChunkEntry) (p : String × ChunkEntry)
    (h : p ∈ dictSet m k e) : p ∈ m ∨ p = (k, e) := by
  induction m with
  | nil => simpa [dictSet] using h
  | cons q rest ih =>
      rcases q with ⟨k0, e0⟩
      by_cases hk : k0 = k
      · simp only [dictSet, if_pos hk, List.mem_cons] at h
        rcases h with h | h
        · right
          rw [h, hk]
        · left
          exact List.mem_cons_of_mem _ h
      · simp only [dictSet, if_neg hk, List.mem_cons] at h
        rcases h with h | h
        · left
          exact h ▸ List.mem_cons_self _ _
        · rcases ih h with h2 | h2
          · left
            exact List.mem_cons_of_mem _ h2
          · right
            exact h2

theorem mem_addVectorAux (cs : List SimilarChunk) (i : Nat) (m : ChunkMap)
    (p : String × ChunkEntry) (h : p ∈ addVectorAux cs i m) :
    p ∈ m ∨ ∃ c ∈ cs, p.2.chunk = c := by
  induction cs generalizing i m with
  | nil => exact Or.inl h
  | cons c rest ih =>
      simp only [addVectorAux] at h
      rcases ih _ _ h with h2 | ⟨c2, hc2, he⟩
      · rcases mem_dictSet _ _ _ _ h2 with h3 | h3
        · exact Or.inl h3
        · refine Or.inr ⟨c, List.mem_cons_self _ _, ?_⟩
          rw [h3]
      · exact Or.inr ⟨c2, List.mem_cons_of_mem _ hc2, he⟩

theorem mem_setBm25 (m : ChunkMap) (k : String) (s : ℚ) (r : Nat)
    (p : String × ChunkEntry) (h : p ∈ setBm25 m k s r) :
    ∃ q ∈ m, p.2.chunk = q.2.chunk ∧ p.2.vector_rank = q.2.vector_rank := by
  induction m with
  | nil => simp [setBm25] at h
  | cons q rest ih =>
      rcases q with ⟨k0, e0⟩
      by_cases hk : k0 = k
      · simp only [setBm25, if_pos hk, List.mem_cons] at h
        rcases h with h | h
        · exact ⟨(k0, e0), List.mem_cons_self _ _, by rw [h], by rw [h]⟩
        · obtain ⟨q2, hq2, he⟩ := ih h
          exact ⟨q2, List.mem_cons_of_mem _ hq2, he⟩
      · simp only [setBm25, if_neg hk, List.mem_cons] at h
        rcases h with h | h
        · exact ⟨(k0, e0), List.mem_cons_self _ _, by rw [h], by rw [h]⟩
        · obtain ⟨q2, hq2, he⟩ := ih h
          exact ⟨q2, List.mem_cons_of_mem _ hq2, he⟩

theorem mem_addBm25Aux (rs : List OpenSearchResult) (i : Nat) (m : ChunkMap)
    (p : String × ChunkEntry) (h : p ∈ addBm25Aux rs i m) :
    (∃ q ∈ m, p.2.chunk = q.2.chunk) ∨ ∃ r ∈ rs, p.2.chunk = osToSimilar r := by
  induction rs generalizing i m with
  | nil => exact Or.inl ⟨p, h, rfl⟩
  | cons r rest ih =>
      simp only [addBm25Aux] at h
      by_cases hc : containsKey m (getOpenSearchChunkId r)
      · simp only [if_pos hc] at h
        rcases ih _ _ h with ⟨q, hq, he⟩ | ⟨r2, hr2, he⟩
        · obtain ⟨q2, hq2, he2, _⟩ := mem_setBm25 _ _ _ _ _ hq
          exact Or.inl ⟨q2, hq2, he.trans he2⟩
        · exact Or.inr ⟨r2, List.mem_cons_of_mem _ hr2, he⟩
      · simp only [if_neg hc] at h
        rcases ih _ _ h with ⟨q, hq, he⟩ | ⟨r2, hr2, he⟩
        · rcases List.mem_append.mp hq with h3 | h3
          · exact Or.inl ⟨q, h3, he⟩
          · have : q = (getOpenSearchChunkId r,
                { chunk := osToSimilar r, vector_score := 0, vector_rank := none,
                  bm25_score := r.score, bm25_rank := some (i + 1) }) := by
              simpa using h3
            refine Or.inr ⟨r, List.mem_cons_self _ _, ?_⟩
            rw [he, this]
        · exact Or.inr ⟨r2, List.mem_cons_of_mem _ hr2, he⟩

theorem mem_buildChunkMap (v : List SimilarChunk) (b : List OpenSearchResult)
    (p : String × ChunkEntry) (h : p ∈ buildChunkMap v b) :
    (∃ c ∈ v, p.2.chunk = c) ∨ ∃ r ∈ b, p.2.chunk = osToSimilar r := by
  rcases mem_addBm25Aux _ _ _ _ h with ⟨q, hq, he⟩ | h2
  · rcases mem_addVectorAux _ _ _ _ hq with h3 | ⟨c, hc, he2⟩
    · simp at h3
    · exact Or.inl ⟨c, hc, he.trans he2⟩
  · exact Or.inr h2

/-- Every chunk `_combine_results` returns carries the text, index and
filename of some entry of `chunk_map`, hence of a branch result. -/
theorem mem_combineResults (W : Weights) (θ? : Option ℚ) (v : List SimilarChunk)
    (b : List OpenSearchResult) (topK : Nat) (out : SimilarChunk)
    (h : out ∈ combineResults W θ? v b topK) :
    (∃ c ∈ v, out.chunk_text = c.chunk_text ∧ out.chunk_index = c.chunk_index ∧
        out.filename = c.filename) ∨
      ∃ r ∈ b, out.chunk_text = r.chunk_text ∧ out.chunk_index = r.chunk_index ∧
        out.filename = r.filename := by
  match θ? with
  | none => simp [combineResults] at h
  | some θ =>
      simp only [combineResults] at h
      obtain ⟨⟨s, c⟩, hmem, hout⟩ := List.mem_map.mp h
      have h1 : (s, c) ∈ sortDescBy Prod.fst (combineCandidates W θ v b) :=
        List.mem_of_mem_take hmem
      have h2 : (s, c) ∈ combineCandidates W θ v b := (mem_sortDescBy _ _ _).mp h1
      obtain ⟨p, hp, hg⟩ := List.mem_filterMap.mp h2
      by_cases hlt : hybridScore W p.2 v.length b.length < θ
      · simp [if_pos hlt] at hg
      · simp only [if_neg hlt, Option.some.injEq, Prod.mk.injEq] at hg
        have ht := congrArg SimilarChunk.chunk_text hg.2
        have hi := congrArg SimilarChunk.chunk_index hg.2
        have hf := congrArg SimilarChunk.filename hg.2
        simp only at ht hi hf
        have hco : c = out := hout
        rw [hco] at ht hi hf
        rcases mem_buildChunkMap v b p hp with ⟨c2, hc2, he⟩ | ⟨r, hr, he⟩
        · exact Or.inl ⟨c2, hc2, by rw [← ht, he], by rw [← hi, he], by rw [← hf, he]⟩
        · refine Or.inr ⟨r, hr, ?_, ?_, ?_⟩
          · rw [← ht, he]
            rfl
          · rw [← hi, he]
            rfl
          · rw [← hf, he]
            rfl

/-- The full retrieval pipeline over an index snapshot: both branch
searches against the same index and division, gathered and fused by
`HybridRetriever.search`. -/
def hybridFromIndex (index : List EmbeddingRecord) (scoreV scoreB : EmbeddingRecord → ℚ)
    (W : Weights) (θ? : Option ℚ) (d : String) (innerK topK : Nat) : List SimilarChunk :=
  combineResults W θ?
    (vectorBranch (.ok (searchSimilarVector index scoreV d innerK)))
    (lexicalBranch (.ok (searchSimilar index scoreB d innerK)))
    topK

/-- C1 (confirmed): every result of the dense (kNN) branch and of the
lexical (BM25) branch, and hence every SimilarityResult of the fused
retrieval, originates from an EmbeddingRecord of the index with
`is_active = true` and `division_id` equal to the requested division —
in particular a query against division `d` never returns a chunk of a
document stored under another division. -/
theorem c1_tenant_visibility_filtering
    (index : List EmbeddingRecord) (scoreV scoreB : EmbeddingRecord → ℚ)
    (W : Weights) (θ? : Option ℚ) (d : String) (innerK topK : Nat) :
    (∀ res ∈ searchSimilarVector index scoreV d innerK,
        ∃ rec ∈ index, rec.is_active = true ∧ rec.division_id = d ∧
          res = toOsResult scoreV rec) ∧
    (∀ res ∈ searchSimilar index scoreB d innerK,
        ∃ rec ∈ index, rec.is_active = true ∧ rec.division_id = d ∧
          res = toOsResult scoreB rec) ∧
    ∀ out ∈ hybridFromIndex index scoreV scoreB W θ? d innerK topK,
      ∃ rec ∈ index, rec.is_active = true ∧ rec.division_id = d ∧
        out.chunk_text = rec.chunk_text ∧ out.chunk_index = rec.chunk_index ∧
        out.filename = rec.filename := by
  refine ⟨?_, ?_, ?_⟩
  · intro res h
    obtain ⟨rec, h1, h2, h3, h4⟩ := mem_searchSimilarVector index scoreV d innerK res h
    exact ⟨rec, h1, h2, h3, h4⟩
  · intro res h
    obtain ⟨rec, h1, h2, h3, h4⟩ := mem_searchSimilar index scoreB d innerK res h
    exact ⟨rec, h1, h2, h3, h4⟩
  · intro out h
    rcases mem_combineResults _ _ _ _ _ _ h with ⟨c, hc, e1, e2, e3⟩ | ⟨r, hr, e1, e2, e3⟩
    · simp only [vectorBranch] at hc
      obtain ⟨res, hres, hcres⟩ := List.mem_map.mp hc
      obtain ⟨rec, h1, h2, h3, h4⟩ := mem_searchSimilarVector index scoreV d innerK res hres
      refine ⟨rec, h1, h2, h3, ?_, ?_, ?_⟩
      · rw [e1, ← hcres, h4]
        rfl
      · rw [e2, ← hcres, h4]
        rfl
      · rw [e3, ← hcres, h4]
        rfl
    · simp only [lexicalBranch] at hr
      obtain ⟨rec, h1, h2, h3, h4⟩ := mem_searchSimilar index scoreB d innerK r hr
      refine ⟨rec, h1, h2, h3, ?_, ?_, ?_⟩
      · rw [e1, h4]
        rfl
      · rw [e2, h4]
        rfl
      · rw [e3, h4]
        rfl

/-- Two-division index used to witness the tenant-isolation theorem. -/
def idxW : List EmbeddingRecord :=
  [⟨"docA", 0, "textA", "divisionA", "a.txt", true⟩,
   ⟨"docB", 0, "textB", "divisionB", "b.txt", true⟩,
   ⟨"docC", 1, "textC", "divisionA", "c.txt", false⟩]

theorem c1_tenant_visibility_filtering_witness :
    (∀ res ∈ searchSimilarVector idxW (fun _ => 1) "divisionA" 10,
        ∃ rec ∈ idxW, rec.is_active = true ∧ rec.division_id = "divisionA" ∧
          res = toOsResult (fun _ => 1) rec) ∧
    (∀ res ∈ searchSimilar idxW (fun _ => 2) "divisionA" 10,
        ∃ rec ∈ idxW, rec.is_active = true ∧ rec.division_id = "divisionA" ∧
          res = toOsResult (fun _ => 2) rec) ∧
    ∀ out ∈ hybridFromIndex idxW (fun _ => 1) (fun _ => 2) defaultWeights (some 0)
        "divisionA" 10 5,
      ∃ rec ∈ idxW, rec.is_active = true ∧ rec.division_id = "divisionA" ∧
        out.chunk_text = rec.chunk_text ∧ out.chunk_index = rec.chunk_index ∧
        out.filename = rec.filename :=
  c1_tenant_visibility_filtering idxW (fun _ => 1) (fun _ => 2) defaultWeights (some 0)
    "divisionA" 10 5


/-! ## Rank bookkeeping in `chunk_map` -/

theorem lookup_dictSet_self (m : ChunkMap) (k : String) (e : ChunkEntry) :
    lookupEntry (dictSet m k e) k = some e := by
  induction m with
  | nil => simp [dictSet, lookupEntry]
  | cons q rest ih =>
      rcases q with ⟨k0, e0⟩
      by_cases hk : k0 = k
      · simp [dictSet, if_pos hk, lookupEntry, hk]
      · simp [dictSet, if_neg hk, lookupEntry, hk, ih]

theorem lookup_dictSet_other (m : ChunkMap) (k : String) (e : ChunkEntry) (k2 : String)
    (h : k2 ≠ k) : lookupEntry (dictSet m k e) k2 = lookupEntry m k2 := by
  induction m with
  | nil =>
      simp only [dictSet, lookupEntry]
      rw [if_neg (fun hc : k = k2 => h hc.symm)]
  | cons q rest ih =>
      rcases q with ⟨k0, e0⟩
      by_cases hk : k0 = k
      · simp only [dictSet, if_pos hk, lookupEntry]
        rw [if_neg (fun hc : k0 = k2 => h (hc.symm.trans hk)),
          if_neg (fun hc : k0 = k2 => h (hc.symm.trans hk))]
      · simp only [dictSet, if_neg hk, lookupEntry]
        by_cases hk2 : k0 = k2
        · rw [if_pos hk2, if_pos hk2]
        · rw [if_neg hk2, if_neg hk2, ih]

theorem lookup_addVectorAux_skip (cs : List SimilarChunk) (i : Nat) (m : ChunkMap)
    (k : String) (h : ∀ c ∈ cs, getChunkId c ≠ k) :
    lookupEntry (addVectorAux cs i m) k = lookupEntry m k := by
  induction cs generalizing i m with
  | nil => rfl
  | cons c rest ih =>
      simp only [addVectorAux]
      rw [ih _ _ (fun c2 hc2 => h c2 (List.mem_cons_of_mem _ hc2))]
      exact lookup_dictSet_other _ _ _ _ (fun hc => h c (List.mem_cons_self _ _) hc.symm)

theorem lookup_addVectorAux_at (cs : List SimilarChunk) (j : Nat) (hj : j < cs.length)
    (i : Nat) (m : ChunkMap) (hnodup : (cs.map getChunkId).Nodup)
    (hm : ∀ p ∈ m, p.1 ≠ getChunkId (cs.get ⟨j, hj⟩)) :
    lookupEntry (addVectorAux cs i m) (getChunkId (cs.get ⟨j, hj⟩)) =
      some { chunk := cs.get ⟨j, hj⟩
             vector_score := 1 / (1 + (cs.get ⟨j, hj⟩).distance)
             vector_rank := some (i + j + 1)
             bm25_score := 0
             bm25_rank := none } := by
  induction cs generalizing i m j with
  | nil => exact absurd hj (by simp)
  | cons c rest ih =>
      have hnd := List.nodup_cons.mp hnodup
      match j with
      | 0 =>
          simp only [List.get] at hm ⊢
          simp only [addVectorAux]
          rw [lookup_addVectorAux_skip _ _ _ _ ?_]
          · exact lookup_dictSet_self _ _ _
          · intro c2 hc2 hceq
            exact hnd.1 (hceq ▸ List.mem_map_of_mem getChunkId hc2)
      | j2 + 1 =>
          have hj2 : j2 < rest.length := Nat.lt_of_succ_lt_succ hj
          simp only [List.get] at hm ⊢
          simp only [addVectorAux]
          have step := ih j2 hj2 (i + 1) (dictSet m (getChunkId c)
            { chunk := c, vector_score := 1 / (1 + c.distance), vector_rank := some (i + 1),
              bm25_score := 0, bm25_rank := none }) hnd.2 ?_
          · rw [step]
            have harith : i + 1 + j2 + 1 = i + (j2 + 1) + 1 := by omega
            rw [harith]
          · intro p hp
            rcases mem_dictSet _ _ _ _ hp with h2 | h2
            · exact hm p h2
            · intro hceq
              rw [h2] at hceq
              have hceq2 : getChunkId c = getChunkId (rest.get ⟨j2, hj2⟩) := hceq
              refine hnd.1 ?_
              rw [hceq2]
              exact List.mem_map_of_mem getChunkId (List.get_mem rest j2 hj2)

theorem lookup_setBm25_other (m : ChunkMap) (k : String) (s : ℚ) (r : Nat) (k2 : String)
    (h : k2 ≠ k) : lookupEntry (setBm25 m k s r) k2 = lookupEntry m k2 := by
  induction m with
  | nil => rfl
  | cons q rest ih =>
      rcases q with ⟨k0, e0⟩
      by_cases hk : k0 = k
      · simp only [setBm25, if_pos hk, lookupEntry]
        rw [if_neg (fun hc : k0 = k2 => h (hc.symm.trans hk)),
          if_neg (fun hc : k0 = k2 => h (hc.symm.trans hk))]
        exact ih
      · simp only [setBm25, if_neg hk, lookupEntry]
        by_cases hk2 : k0 = k2
        · rw [if_pos hk2, if_pos hk2]
        · rw [if_neg hk2, if_neg hk2]
          exact ih

theorem lookup_append_single_other (m : ChunkMap) (k2 : String) (e : ChunkEntry)
    (k : String) (h : k ≠ k2) : lookupEntry (m ++ [(k2, e)]) k = lookupEntry m k := by
  induction m with
  | nil =>
      simp only [List.nil_append, lookupEntry]
      rw [if_neg (fun hc : k2 = k => h hc.symm)]
  | cons q rest ih =>
      rcases q with ⟨k0, e0⟩
      simp only [List.cons_append, lookupEntry]
      by_cases hk : k0 = k
      · rw [if_pos hk, if_pos hk]
      · rw [if_neg hk, if_neg hk]
        exact ih

theorem lookup_addBm25Aux_skip (rs : List OpenSearchResult) (i : Nat) (m : ChunkMap)
    (k : String) (h : ∀ r ∈ rs, getOpenSearchChunkId r ≠ k) :
    lookupEntry (addBm25Aux rs i m) k = lookupEntry m k := by
  induction rs generalizing i m with
  | nil => rfl
  | cons r rest ih =>
      simp only [addBm25Aux]
      have hk : getOpenSearchChunkId r ≠ k := h r (List.mem_cons_self _ _)
      by_cases hc : containsKey m (getOpenSearchChunkId r)
      · rw [if_pos hc, ih _ _ (fun r2 hr2 => h r2 (List.mem_cons_of_mem _ hr2))]
        exact lookup_setBm25_other _ _ _ _ _ (fun hceq => hk hceq.symm)
      · rw [if_neg hc, ih _ _ (fun r2 hr2 => h r2 (List.mem_cons_of_mem _ hr2))]
        exact lookup_append_single_other _ _ _ _ (fun hceq => hk hceq.symm)

theorem lookup_none_of_keys_ne (m : ChunkMap) (k : String)
    (h : ∀ p ∈ m, p.1 ≠ k) : lookupEntry m k = none := by
  induction m with
  | nil => rfl
  | cons q rest ih =>
      rcases q with ⟨k0, e0⟩
      simp only [lookupEntry]
      rw [if_neg (h (k0, e0) (List.mem_cons_self _ _))]
      exact ih (fun p hp => h p (List.mem_cons_of_mem _ hp))

theorem lookup_append_self (m : ChunkMap) (k : String) (e : ChunkEntry)
    (h : lookupEntry m k = none) : lookupEntry (m ++ [(k, e)]) k = some e := by
  induction m with
  | nil => simp [lookupEntry]
  | cons q rest ih =>
      rcases q with ⟨k0, e0⟩
      simp only [List.cons_append, lookupEntry] at h ⊢
      by_cases hk : k0 = k
      · rw [if_pos hk] at h
        exact absurd h (by simp)
      · rw [if_neg hk] at h ⊢
        exact ih h

theorem mem_setBm25_key (m : ChunkMap) (k : String) (s : ℚ) (r : Nat)
    (p : String × ChunkEntry) (h : p ∈ setBm25 m k s r) : ∃ q ∈ m, p.1 = q.1 := by
  induction m with
  | nil => simp [setBm25] at h
  | cons q0 rest ih =>
      rcases q0 with ⟨k0, e0⟩
      by_cases hk : k0 = k
      · simp only [setBm25, if_pos hk, List.mem_cons] at h
        rcases h with h | h
        · exact ⟨(k0, e0), List.mem_cons_self _ _, by rw [h]⟩
        · obtain ⟨q, hq, he⟩ := ih h
          exact ⟨q, List.mem_cons_of_mem _ hq, he⟩
      · simp only [setBm25, if_neg hk, List.mem_cons] at h
        rcases h with h | h
        · exact ⟨(k0, e0), List.mem_cons_self _ _, by rw [h]⟩
        · obtain ⟨q, hq, he⟩ := ih h
          exact ⟨q, List.mem_cons_of_mem _ hq, he⟩

theorem mem_addVectorAux_key (cs : List SimilarChunk) (i : Nat) (m : ChunkMap)
    (p : String × ChunkEntry) (h : p ∈ addVectorAux cs i m) :
    (∃ q ∈ m, p.1 = q.1) ∨ ∃ c ∈ cs, p.1 = getChunkId c := by
  induction cs generalizing i m with
  | nil => exact Or.inl ⟨p, h, rfl⟩
  | cons c rest ih =>
      simp only [addVectorAux] at h
      rcases ih _ _ h with ⟨q, hq, he⟩ | ⟨c2, hc2, he⟩
      · rcases mem_dictSet _ _ _ _ hq with h2 | h2
        · exact Or.inl ⟨q, h2, he⟩
        · refine Or.inr ⟨c, List.mem_cons_self _ _, ?_⟩
          rw [he, h2]
      · exact Or.inr ⟨c2, List.mem_cons_of_mem _ hc2, he⟩

theorem lookup_addBm25Aux_at (rs : List OpenSearchResult) (j : Nat) (hj : j < rs.length)
    (i : Nat) (m : ChunkMap) (hnodup : (rs.map getOpenSearchChunkId).Nodup)
    (hm : ∀ p ∈ m, p.1 ≠ getOpenSearchChunkId (rs.get ⟨j, hj⟩)) :
    lookupEntry (addBm25Aux rs i m) (getOpenSearchChunkId (rs.get ⟨j, hj⟩)) =
      some { chunk := osToSimilar (rs.get ⟨j, hj⟩)
             vector_score := 0
             vector_rank := none
             bm25_score := (rs.get ⟨j, hj⟩).score
             bm25_rank := some (i + j + 1) } := by
  induction rs generalizing i m j with
  | nil => exact absurd hj (by simp)
  | cons r rest ih =>
      have hnd := List.nodup_cons.mp hnodup
      match j with
      | 0 =>
          simp only [List.get] at hm ⊢
          simp only [addBm25Aux]
          have hnone : lookupEntry m (getOpenSearchChunkId r) = none :=
            lookup_none_of_keys_ne m _ hm
          have hck : ¬ (containsKey m (getOpenSearchChunkId r) = true) := by
            unfold containsKey
            rw [hnone]
            simp
          rw [if_neg hck]
          rw [lookup_addBm25Aux_skip rest (i + 1) _ _ ?_]
          · exact lookup_append_self m _ _ hnone
          · intro r2 hr2 hceq
            exact hnd.1 (hceq ▸ List.mem_map_of_mem getOpenSearchChunkId hr2)
      | j2 + 1 =>
          have hj2 : j2 < rest.length := Nat.lt_of_succ_lt_succ hj
          simp only [List.get] at hm ⊢
          simp only [addBm25Aux]
          have hkne : getOpenSearchChunkId r ≠ getOpenSearchChunkId (rest.get ⟨j2, hj2⟩) := by
            intro hceq
            exact hnd.1 (hceq ▸ List.mem_map_of_mem getOpenSearchChunkId
              (List.get_mem rest j2 hj2))
          by_cases hc : containsKey m (getOpenSearchChunkId r) = true
          · rw [if_pos hc]
            have step := ih j2 hj2 (i + 1)
              (setBm25 m (getOpenSearchChunkId r) r.score (i + 1)) hnd.2 ?_
            · rw [step]
              have harith : i + 1 + j2 + 1 = i + (j2 + 1) + 1 := by omega
              rw [harith]
            · intro p hp
              obtain ⟨q, hq, hpq⟩ := mem_setBm25_key m _ _ _ p hp
              rw [hpq]
              exact hm q hq
          · rw [if_neg hc]
            have step := ih j2 hj2 (i + 1)
              (m ++ [(getOpenSearchChunkId r,
                { chunk := osToSimilar r, vector_score := 0, vector_rank := none,
                  bm25_score := r.score, bm25_rank := some (i + 1) })]) hnd.2 ?_
            · rw [step]
              have harith : i + 1 + j2 + 1 = i + (j2 + 1) + 1 := by omega
              rw [harith]
            · intro p hp
              rcases List.mem_append.mp hp with h2 | h2
              · exact hm p h2
              · have hpk : p = (getOpenSearchChunkId r,
                    { chunk := osToSimilar r, vector_score := 0, vector_rank := none,
                      bm25_score := r.score, bm25_rank := some (i + 1) }) := by
                  simpa using h2
                rw [hpk]
                exact hkne

/-- C4 (amended, confirmed as amended): the per-entry fused score is
`vector_weight * (1/dense rank) + bm25_weight * (1/lexical rank)` with a
`0` contribution for an absent rank, but — because the dense branch keys
by `filename_chunkindex` and the lexical branch by
`documentid_chunkindex` — this holds per `chunk_map` entry, and a chunk
held by both branches occupies two entries, each carrying only its own
branch's contribution (see `c4_rank_one_both_branches_not_summed`).
Here: a chunk at 1-based dense rank `j+1` whose key no lexical result
shares scores `vector_weight * (1/(j+1))` (at rank 1 exactly
`vector_weight * 1`); a result at 1-based lexical rank `j2+1` whose key
no dense chunk shares scores `bm25_weight * (1/(j2+1))`; and every chunk
`_combine_results` returns comes from one of the two branch lists, so a
chunk absent from both branches is never returned. -/
theorem c4_reciprocal_rank_fusion
    (W : Weights) (v : List SimilarChunk) (b : List OpenSearchResult)
    (θ? : Option ℚ) (topK j j2 : Nat) (hj : j < v.length) (hj2 : j2 < b.length)
    (hnv : (v.map getChunkId).Nodup) (hnb : (b.map getOpenSearchChunkId).Nodup)
    (hb : ∀ r ∈ b, getOpenSearchChunkId r ≠ getChunkId (v.get ⟨j, hj⟩))
    (hv : ∀ c ∈ v, getChunkId c ≠ getOpenSearchChunkId (b.get ⟨j2, hj2⟩)) :
    (∃ e, lookupEntry (buildChunkMap v b) (getChunkId (v.get ⟨j, hj⟩)) = some e ∧
        e.vector_rank = some (j + 1) ∧ e.bm25_rank = none ∧
        hybridScore W e v.length b.length = W.vector_weight * (1 / ((j : ℚ) + 1))) ∧
    (∃ e, lookupEntry (buildChunkMap v b) (getOpenSearchChunkId (b.get ⟨j2, hj2⟩)) = some e ∧
        e.vector_rank = none ∧ e.bm25_rank = some (j2 + 1) ∧
        hybridScore W e v.length b.length = W.bm25_weight * (1 / ((j2 : ℚ) + 1))) ∧
    ∀ out ∈ combineResults W θ? v b topK,
      (∃ c ∈ v, out.chunk_text = c.chunk_text ∧ out.chunk_index = c.chunk_index ∧
          out.filename = c.filename) ∨
        ∃ r ∈ b, out.chunk_text = r.chunk_text ∧ out.chunk_index = r.chunk_index ∧
          out.filename = r.filename := by
  refine ⟨?_, ?_, ?_⟩
  · have hlook : lookupEntry (buildChunkMap v b) (getChunkId (v.get ⟨j, hj⟩)) =
        some { chunk := v.get ⟨j, hj⟩
               vector_score := 1 / (1 + (v.get ⟨j, hj⟩).distance)
               vector_rank := some (0 + j + 1)
               bm25_score := 0
               bm25_rank := none } := by
      unfold buildChunkMap
      rw [lookup_addBm25Aux_skip _ _ _ _ hb]
      exact lookup_addVectorAux_at v j hj 0 [] hnv (by intro p hp; simp at hp)
    refine ⟨_, hlook, by simp, rfl, ?_⟩
    have hvne : v.length ≠ 0 := by omega
    simp only [hybridScore, normalizeRankScore, if_neg hvne]
    have hcast : ((0 + j + 1 : ℕ) : ℚ) = (j : ℚ) + 1 := by push_cast; ring
    rw [hcast]
    ring
  · have hm2 : ∀ p ∈ addVectorAux v 0 ([] : ChunkMap),
        p.1 ≠ getOpenSearchChunkId (b.get ⟨j2, hj2⟩) := by
      intro p hp
      rcases mem_addVectorAux_key v 0 [] p hp with ⟨q, hq, _⟩ | ⟨c, hc, he⟩
      · simp at hq
      · rw [he]
        exact hv c hc
    have hlook : lookupEntry (buildChunkMap v b) (getOpenSearchChunkId (b.get ⟨j2, hj2⟩)) =
        some { chunk := osToSimilar (b.get ⟨j2, hj2⟩)
               vector_score := 0
               vector_rank := none
               bm25_score := (b.get ⟨j2, hj2⟩).score
               bm25_rank := some (0 + j2 + 1) } := by
      unfold buildChunkMap
      exact lookup_addBm25Aux_at b j2 hj2 0 (addVectorAux v 0 []) hnb hm2
    refine ⟨_, hlook, rfl, by simp, ?_⟩
    have hbne : b.length ≠ 0 := by omega
    simp only [hybridScore, normalizeRankScore, if_neg hbne]
    have hcast : ((0 + j2 + 1 : ℕ) : ℚ) = (j2 : ℚ) + 1 := by push_cast; ring
    rw [hcast]
    ring
  · intro out h
    exact mem_combineResults W θ? v b topK out h

def cW4 : SimilarChunk := ⟨"wtext", 0, "wfile", 1/2⟩

/-- A lexical result whose identity key no dense chunk shares. -/
def resW4 : OpenSearchResult := ⟨2, "wtext2", 1, "wfile2", true, "wdoc", "wdiv"⟩

theorem c4_reciprocal_rank_fusion_witness :
    (∃ e, lookupEntry (buildChunkMap [cW4] [resW4]) (getChunkId cW4) = some e ∧
        e.vector_rank = some 1 ∧ e.bm25_rank = none ∧
        hybridScore defaultWeights e 1 1 = defaultWeights.vector_weight * 1) ∧
    ∃ e, lookupEntry (buildChunkMap [cW4] [resW4]) (getOpenSearchChunkId resW4) = some e ∧
      e.vector_rank = none ∧ e.bm25_rank = some 1 ∧
      hybridScore defaultWeights e 1 1 = defaultWeights.bm25_weight * 1 := by
  have h := c4_reciprocal_rank_fusion defaultWeights [cW4] [resW4] (some 0) 5 0 0
    (by decide) (by decide) (by decide) (by decide) (by decide) (by decide)
  constructor
  · obtain ⟨e, h1, h2, h3, h4⟩ := h.1
    refine ⟨e, h1, h2, h3, ?_⟩
    simpa using h4
  · obtain ⟨e, h1, h2, h3, h4⟩ := h.2.1
    refine ⟨e, h1, h2, h3, ?_⟩
    simpa using h4

/-- Index record used to refute the original scoring claim: its chunk is
returned by both branches. -/
def recC4 : EmbeddingRecord := ⟨"docC4", 0, "textC4", "divB", "fileC4", true⟩

def denseC4 : List SimilarChunk :=
  vectorBranch (.ok (searchSimilarVector [recC4] (fun _ => 1) "divB" 10))

def bmC4 : List OpenSearchResult :=
  lexicalBranch (.ok (searchSimilar [recC4] (fun _ => 2) "divB" 10))

/-- C4 (counterexample to the claim as stated): one stored chunk is
returned at 1-based rank 1 by the dense branch and at rank 1 by the
lexical branch; the claim then demands the single fused score
`vector_weight * 1 + bm25_weight * 1 = 1`.  Instead, because
`_get_chunk_id` and `_get_opensearch_chunk_id` produce different keys
for the same chunk, `chunk_map` holds two entries for it, scored
`7/10` (dense contribution only) and `3/10` (lexical contribution
only) — no entry carries the claimed sum `1`. -/
theorem c4_rank_one_both_branches_not_summed :
    denseC4 = [⟨"textC4", 0, "fileC4", 1/2⟩] ∧
    bmC4 = [⟨2, "textC4", 0, "fileC4", true, "docC4", "divB"⟩] ∧
    (buildChunkMap denseC4 bmC4).map
        (fun p => (p.2.chunk.chunk_text, p.2.chunk.chunk_index, p.2.chunk.filename)) =
      [("textC4", 0, "fileC4"), ("textC4", 0, "fileC4")] ∧
    (buildChunkMap denseC4 bmC4).map
        (fun p => hybridScore defaultWeights p.2 denseC4.length bmC4.length) =
      [7/10, 3/10] ∧
    defaultWeights.vector_weight * 1 + defaultWeights.bm25_weight * 1 = 1 ∧
    ∀ s ∈ (buildChunkMap denseC4 bmC4).map
        (fun p => hybridScore defaultWeights p.2 denseC4.length bmC4.length),
      s ≠ 1 := by
  have hne : ("fileC4" ++ "_" ++ toString (0 : Nat)) ≠ ("docC4" ++ "_" ++ toString (0 : Nat)) := by
    decide
  have hscores : (buildChunkMap denseC4 bmC4).map
      (fun p => hybridScore defaultWeights p.2 denseC4.length bmC4.length) =
      [7/10, 3/10] := by
    norm_num [buildChunkMap, denseC4, bmC4, vectorBranch, lexicalBranch, searchSimilarVector,
      searchSimilar, osHits, sortDescBy, insertDescBy, recordMatchesFilters, recC4, toOsResult,
      addVectorAux, addBm25Aux, dictSet, setBm25, containsKey, lookupEntry, getChunkId,
      getOpenSearchChunkId, osToSimilar, hybridScore, normalizeRankScore, defaultWeights,
      mkWeights, hne]
  refine ⟨?_, ?_, ?_, hscores, by norm_num [defaultWeights, mkWeights], ?_⟩
  · norm_num [denseC4, vectorBranch, searchSimilarVector, osHits, sortDescBy, insertDescBy,
      recordMatchesFilters, recC4, toOsResult, osToSimilar]
  · norm_num [bmC4, lexicalBranch, searchSimilar, osHits, sortDescBy, insertDescBy,
      recordMatchesFilters, recC4, toOsResult]
  · norm_num [buildChunkMap, denseC4, bmC4, vectorBranch, lexicalBranch, searchSimilarVector,
      searchSimilar, osHits, sortDescBy, insertDescBy, recordMatchesFilters, recC4, toOsResult,
      addVectorAux, addBm25Aux, dictSet, setBm25, containsKey, lookupEntry, getChunkId,
      getOpenSearchChunkId, osToSimilar, hne]
  · rw [hscores]
    intro s hs
    simp only [List.mem_cons, List.not_mem_nil, or_false] at hs
    rcases hs with hs | hs <;> rw [hs] <;> norm_num


/-! ## The missing `result_threshold` setting (C2) -/

/-- Had a threshold `θ` been configured, every candidate the loop keeps
has fused score at least `θ` (lines 230-232). -/
theorem score_ge_of_mem_combineCandidates (W : Weights) (θ : ℚ) (v : List SimilarChunk)
    (b : List OpenSearchResult) (q : ℚ × SimilarChunk)
    (hq : q ∈ combineCandidates W θ v b) : θ ≤ q.1 := by
  obtain ⟨p, hp, hg⟩ := List.mem_filterMap.mp hq
  by_cases hlt : hybridScore W p.2 v.length b.length < θ
  · simp [if_pos hlt] at hg
  · simp only [if_neg hlt, Option.some.injEq] at hg
    have h1 : q.1 = hybridScore W p.2 v.length b.length := by rw [← hg]
    rw [h1]
    exact not_lt.mp hlt

/-- Had a threshold `θ` been configured, every `chunk_map` entry whose
fused score reaches `θ` is kept as a candidate for the final `top_k`
selection. -/
theorem mem_combineCandidates_of_ge (W : Weights) (θ : ℚ) (v : List SimilarChunk)
    (b : List OpenSearchResult) (p : String × ChunkEntry) (hp : p ∈ buildChunkMap v b)
    (hge : θ ≤ hybridScore W p.2 v.length b.length) :
    (hybridScore W p.2 v.length b.length,
      ({ chunk_text := p.2.chunk.chunk_text
         chunk_index := p.2.chunk.chunk_index
         filename := p.2.chunk.filename
         distance := 1 / (1 + hybridScore W p.2 v.length b.length) } : SimilarChunk)) ∈
      combineCandidates W θ v b := by
  refine List.mem_filterMap.mpr ⟨p, hp, ?_⟩
  rw [if_neg (not_lt.mpr hge)]

def cW2 : SimilarChunk := ⟨"ctext", 0, "cfile", 1/2⟩

def eW2 : ChunkEntry := ⟨cW2, 2/3, some 1, 0, none⟩

/-- C2 (code_bug): `config.py` defines no `result_threshold`, so the
comparison `hybrid_score < settings.result_threshold` at
`hybrid_retriever.py:230` raises `AttributeError` on the first candidate
and the handler at line 262 returns `[]`.  Evaluated at a dense-only
rank-1 chunk: its fused score is `0.7`, yet the combined result of the
program as configured is empty — nothing is ever retained, whatever the
score. -/
theorem c2_threshold_unconfigured :
    lookupEntry (buildChunkMap [cW2] []) (getChunkId cW2) = some eW2 ∧
    hybridScore defaultWeights eW2 1 0 = 7 / 10 ∧
    combineResults defaultWeights none [cW2] [] 5 = [] := by
  refine ⟨?_, ?_, ?_⟩
  · norm_num [buildChunkMap, addVectorAux, addBm25Aux, dictSet, lookupEntry, getChunkId, cW2, eW2]
  · norm_num [hybridScore, normalizeRankScore, defaultWeights, mkWeights, eW2]
  · norm_num [combineResults]

/-! ## Cross-branch identity keys (C3) -/

/-- Index record used to exhibit the identity-key mismatch. -/
def recC3 : EmbeddingRecord := ⟨"docid", 0, "rectext", "divA", "fileB", true⟩

/-- The dense branch result when the single stored chunk is returned by
the kNN search (score 1), as `_vector_search` delivers it. -/
def denseC3 : List SimilarChunk :=
  vectorBranch (.ok (searchSimilarVector [recC3] (fun _ => 1) "divA" 10))

/-- The lexical branch result when the same stored chunk is returned by
the BM25 search (score 2). -/
def bmC3 : List OpenSearchResult :=
  lexicalBranch (.ok (searchSimilar [recC3] (fun _ => 2) "divA" 10))

/-- C3 (code_bug): the dense branch keys a chunk by
`filename_chunkindex` while the lexical branch keys it by
`documentid_chunkindex`.  For one stored chunk returned by both
branches the two keys differ (`"fileB_0"` vs `"docid_0"`), so
`chunk_map` holds two separate entries for the same chunk — the first
with no lexical rank, the second with no dense rank — the branches'
rank contributions are never combined, and (with any configured
threshold, here 0) the fused result lists the same document-id +
chunk-index twice; with the source-tree configuration (no
`result_threshold`) the result is `[]` instead. -/
theorem c3_chunk_identity_key_mismatch :
    denseC3 = [⟨"rectext", 0, "fileB", 1/2⟩] ∧
    bmC3 = [⟨2, "rectext", 0, "fileB", true, "docid", "divA"⟩] ∧
    (buildChunkMap denseC3 bmC3).map Prod.fst = ["fileB_0", "docid_0"] ∧
    (buildChunkMap denseC3 bmC3).map (fun p => (p.2.chunk.filename, p.2.chunk.chunk_index)) =
      [("fileB", 0), ("fileB", 0)] ∧
    (buildChunkMap denseC3 bmC3).map (fun p => (p.2.vector_rank, p.2.bm25_rank)) =
      [(some 1, none), (none, some 1)] ∧
    (combineResults defaultWeights (some 0) denseC3 bmC3 5).map
        (fun c => (c.filename, c.chunk_index)) = [("fileB", 0), ("fileB", 0)] ∧
    combineResults defaultWeights none denseC3 bmC3 5 = [] := by
  have hne : ("fileB" ++ "_" ++ toString (0 : Nat)) ≠ ("docid" ++ "_" ++ toString (0 : Nat)) := by
    decide
  have hk1 : ("fileB" ++ "_" ++ toString (0 : Nat)) = "fileB_0" := by decide
  have hk2 : ("docid" ++ "_" ++ toString (0 : Nat)) = "docid_0" := by decide
  have hne2 : ("fileB_0" : String) ≠ "docid_0" := by decide
  refine ⟨?_, ?_, ?_, ?_, ?_, ?_, ?_⟩ <;>
    norm_num [combineResults, combineCandidates, buildChunkMap, denseC3, bmC3, vectorBranch,
      lexicalBranch, searchSimilarVector, searchSimilar, osHits, sortDescBy, insertDescBy,
      recordMatchesFilters, recC3, toOsResult, addVectorAux, addBm25Aux, dictSet, setBm25,
      containsKey, lookupEntry, getChunkId, getOpenSearchChunkId, osToSimilar, hybridScore,
      normalizeRankScore, defaultWeights, mkWeights, hne, hk1, hk2, hne2,
      List.filterMap_cons, List.filterMap_nil, List.take_succ_cons, List.take_nil]

/-! ## Totality of the search interface (C10) and the fallback (C5) -/

/-- C10 (confirmed): `HybridRetriever.search` always returns `Except.ok`
with a list — never an error — for every combination of backend-call
outcomes; a raising dense branch is replaced by `[]` while the lexical
results are still fused, symmetrically for the lexical branch, and with
the source tree's configuration (`result_threshold` missing, so the
fusion loop raises internally and `_combine_results` catches) the overall
result is `[]`. -/
theorem c10_search_total (W : Weights) (θ? : Option ℚ)
    (vc bc : Except Unit (List OpenSearchResult)) (topK : Nat) :
    ∃ l : List SimilarChunk, hybridSearch W θ? vc bc topK = .ok l ∧
      (vc = .error () → l = combineResults W θ? [] (lexicalBranch bc) topK) ∧
      (bc = .error () → l = combineResults W θ? (vectorBranch vc) [] topK) ∧
      (θ? = none → l = []) := by
  refine ⟨combineResults W θ? (vectorBranch vc) (lexicalBranch bc) topK, rfl, ?_, ?_, ?_⟩
  · intro hv
    rw [hv]
    rfl
  · intro hb
    rw [hb]
    rfl
  · intro hθ
    rw [hθ]
    rfl

/-- A lexical-branch result used to instantiate `c10_search_total`. -/
def resW10 : OpenSearchResult := ⟨1, "t10", 0, "f10", true, "doc10", "div10"⟩

theorem c10_search_total_witness :
    ∃ l : List SimilarChunk,
      hybridSearch defaultWeights none (.error ()) (.ok [resW10]) 5 = .ok l ∧
      ((.error () : Except Unit (List OpenSearchResult)) = .error () →
        l = combineResults defaultWeights none [] (lexicalBranch (.ok [resW10])) 5) ∧
      ((.ok [resW10] : Except Unit (List OpenSearchResult)) = .error () →
        l = combineResults defaultWeights none (vectorBranch (.error ())) [] 5) ∧
      ((none : Option ℚ) = none → l = []) :=
  c10_search_total defaultWeights none (.error ()) (.ok [resW10]) 5

/-- The chunk the vector-only fallback would deliver in the C5 scenario. -/
def cW5 : SimilarChunk := ⟨"fallback text", 0, "fb.txt", 1/4⟩

/-- C5 (counterexample to the claim as stated): both backend calls of
the hybrid path raise, so the hybrid search fails internally — yet
`HybridRetriever.search` swallows the exceptions and returns `ok []`,
`_retrieve_similar_chunks_hybrid` therefore never reaches its `except`
branch, and the caller receives the empty list even though the
vector-only fallback would have produced a non-empty result. -/
theorem c5_counterexample :
    retrieveChunks defaultWeights none (.error ()) (.error ()) 5 (.ok [cW5]) = [] ∧
    fallbackRetrieve (.ok [cW5]) = [cW5] ∧
    ([cW5] : List SimilarChunk) ≠ [] := by
  refine ⟨rfl, rfl, by simp⟩

/-- C5 (amended, confirmed): the vector-only fallback runs only when the
`hybrid_retriever.search` call itself raises; since that call always
returns a list (`c10_search_total`), the composed retrieval never
consults the fallback — its result is the hybrid list for every fallback
outcome — while a hypothetical raising search call would indeed be
answered by the fallback, which is empty only if the fallback itself
produces nothing. -/
theorem c5_fallback_only_on_raise (W : Weights) (θ? : Option ℚ)
    (vc bc : Except Unit (List OpenSearchResult)) (topK : Nat)
    (db db2 : Except Unit (List SimilarChunk)) :
    retrieveChunks W θ? vc bc topK db =
      combineResults W θ? (vectorBranch vc) (lexicalBranch bc) topK ∧
    retrieveChunks W θ? vc bc topK db = retrieveChunks W θ? vc bc topK db2 ∧
    retrieveSimilarChunksHybrid (.error ()) db = fallbackRetrieve db ∧
    (retrieveSimilarChunksHybrid (.error ()) db = [] ↔ fallbackRetrieve db = []) := by
  exact ⟨rfl, rfl, rfl, Iff.rfl⟩

/-! ## Empty extraction and the parsing stage (C8) -/

/-- C8 (counterexample to the claim as stated): extraction yielding the
whitespace-only text `" "` makes `parse_document` return the empty chunk
list (not `None`, i.e. not a failure), but `process_document_parsing`
tests `if not chunks:`, which is also true of `[]`, and writes
`parsing_failed`. -/
theorem c8_counterexample :
    parseDocument (.ok [' ']) (fun t => t) 512 50 (String.toList "f") = some [] ∧
    statusAfterParse (parseDocument (.ok [' ']) (fun t => t) 512 50 (String.toList "f")) =
      "parsing_failed" := by
  constructor
  · rfl
  · rfl

/-- C8 (amended, confirmed): for every extraction outcome whose text is
empty or whitespace-only, `parse_document` returns zero chunks rather
than the failure value `None` — but the pipeline's falsiness test
`if not chunks:` does not distinguish `[]` from `None`, so the document
status is nevertheless set to `parsing_failed`. -/
theorem c8_empty_extraction (t : List Char) (clean : List Char → List Char)
    (size ov : Nat) (fn : List Char) (h : pyStrip t = []) :
    parseDocument (.ok t) clean size ov fn = some [] ∧
    statusAfterParse (parseDocument (.ok t) clean size ov fn) = "parsing_failed" := by
  have h1 : parseDocument (.ok t) clean size ov fn = some [] := by
    simp only [parseDocument, h, if_pos]
  exact ⟨h1, by rw [h1]; rfl⟩

theorem c8_empty_extraction_witness :
    pyStrip [' ', '\n'] = [] ∧
    parseDocument (.ok [' ', '\n']) (fun t => t) 512 50 (String.toList "doc.txt") = some [] ∧
    statusAfterParse (parseDocument (.ok [' ', '\n']) (fun t => t) 512 50
      (String.toList "doc.txt")) = "parsing_failed" := by
  refine ⟨by decide, ?_⟩
  exact c8_empty_extraction [' ', '\n'] (fun t => t) 512 50 (String.toList "doc.txt") (by decide)

/-! ## Chunker lemmas (C6, C7) -/

theorem rfindSpaceAux_some (cs : List Char) :
    ∀ (i start stop : Nat) (acc : Option Nat) (ls : Nat),
      rfindSpaceAux cs i start stop acc = some ls →
      acc = some ls ∨ (start ≤ ls ∧ ls < stop) := by
  induction cs with
  | nil =>
      intro i start stop acc ls h
      exact Or.inl h
  | cons c rest ih =>
      intro i start stop acc ls h
      simp only [rfindSpaceAux] at h
      rcases ih _ _ _ _ _ h with h2 | h2
      · by_cases hc : start ≤ i ∧ i < stop ∧ c = ' '
        · rw [if_pos hc] at h2
          right
          cases h2
          exact ⟨hc.1, hc.2.1⟩
        · rw [if_neg hc] at h2
          exact Or.inl h2
      · exact Or.inr h2

theorem rfindSpace_some (t : List Char) (start stop ls : Nat)
    (h : rfindSpace t start stop = some ls) : start ≤ ls ∧ ls < stop := by
  rcases rfindSpaceAux_some t 0 start stop none ls h with h2 | h2
  · exact absurd h2 (by simp)
  · exact h2

theorem chunkEnd_le (size : Nat) (t : List Char) (start : Nat) :
    chunkEnd size t start ≤ start + size ∧ chunkEnd size t start ≤ t.length := by
  unfold chunkEnd
  by_cases h : start + size < t.length
  · simp only [if_pos h]
    match hf : rfindSpace t start (start + size) with
    | none => exact ⟨le_refl _, le_of_lt h⟩
    | some ls =>
        have hb := rfindSpace_some t start (start + size) ls hf
        by_cases hgt : start < ls
        · simp only [if_pos hgt]
          exact ⟨le_of_lt hb.2, le_of_lt (lt_trans hb.2 h)⟩
        · simp only [if_neg hgt]
          exact ⟨le_refl _, le_of_lt h⟩
  · simp only [if_neg h]
    exact ⟨Nat.le_of_not_lt h, le_refl _⟩

theorem lt_chunkEnd (size : Nat) (t : List Char) (start : Nat)
    (hsize : 1 ≤ size) (hstart : start < t.length) : start < chunkEnd size t start := by
  unfold chunkEnd
  by_cases h : start + size < t.length
  · simp only [if_pos h]
    rcases hf : rfindSpace t start (start + size) with _ | ls
    · simp only [hf]
      omega
    · simp only [hf]
      by_cases hgt : start < ls
      · simp only [if_pos hgt]
        exact hgt
      · simp only [if_neg hgt]
        omega
  · simp only [if_neg h]
    exact hstart

theorem nextStart_progress (ov start e : Nat) (h : start < e) :
    start < nextStart ov start e ∧ nextStart ov start e ≤ e ∧ e ≤ nextStart ov start e + ov := by
  unfold nextStart
  by_cases hc : e - ov ≤ start
  · simp only [if_pos hc]
    omega
  · simp only [if_neg hc]
    omega

theorem chunkLoop_cons (fn : List Char) (size ov : Nat) (t : List Char) (f start idx : Nat)
    (h : start < t.length) :
    chunkLoop fn size ov t (f + 1) start idx =
      if t.length ≤ chunkEnd size t start then [mkChunk fn t idx start (chunkEnd size t start)]
      else mkChunk fn t idx start (chunkEnd size t start) ::
        chunkLoop fn size ov t f (nextStart ov start (chunkEnd size t start)) (idx + 1) := by
  simp only [chunkLoop, if_pos h]

theorem chunkLoop_ne_nil (fn : List Char) (size ov : Nat) (t : List Char) (f start idx : Nat)
    (h : start < t.length) :
    ∃ c tail, chunkLoop fn size ov t (f + 1) start idx = c :: tail ∧
      c = mkChunk fn t idx start (chunkEnd size t start) := by
  rw [chunkLoop_cons fn size ov t f start idx h]
  by_cases hend : t.length ≤ chunkEnd size t start
  · exact ⟨_, _, by rw [if_pos hend], rfl⟩
  · exact ⟨_, _, by rw [if_neg hend], rfl⟩

/-- One more unit of fuel changes nothing once the fuel covers the
remaining text: the loop halts before running out. -/
theorem chunkLoop_fuel_succ (fn : List Char) (size ov : Nat) (t : List Char)
    (hsize : 1 ≤ size) :
    ∀ (f start idx : Nat), t.length - start ≤ f →
      chunkLoop fn size ov t f start idx = chunkLoop fn size ov t (f + 1) start idx := by
  intro f
  induction f with
  | zero =>
      intro start idx hf
      have hge : t.length ≤ start := by omega
      simp only [chunkLoop, if_neg (Nat.not_lt.mpr hge)]
  | succ f ih =>
      intro start idx hf
      by_cases hstart : start < t.length
      · rw [chunkLoop_cons fn size ov t (f + 1) start idx hstart,
          chunkLoop_cons fn size ov t f start idx hstart]
        by_cases hend : t.length ≤ chunkEnd size t start
        · rw [if_pos hend, if_pos hend]
        · rw [if_neg hend, if_neg hend]
          have he := lt_chunkEnd size t start hsize hstart
          have hp := nextStart_progress ov start (chunkEnd size t start) he
          rw [ih (nextStart ov start (chunkEnd size t start)) (idx + 1) (by omega)]
      · simp only [chunkLoop, if_neg hstart]

theorem chunkLoop_fuel_add (fn : List Char) (size ov : Nat) (t : List Char)
    (hsize : 1 ≤ size) (f g start idx : Nat) (hf : t.length - start ≤ f) :
    chunkLoop fn size ov t f start idx = chunkLoop fn size ov t (f + g) start idx := by
  induction g with
  | zero => rfl
  | succ g ih =>
      rw [ih, ← Nat.add_assoc]
      exact chunkLoop_fuel_succ fn size ov t hsize (f + g) start idx (by omega)

theorem chunkLoop_fuel_eq (fn : List Char) (size ov : Nat) (t : List Char)
    (hsize : 1 ≤ size) (f g start idx : Nat) (hf : t.length - start ≤ f)
    (hg : t.length - start ≤ g) :
    chunkLoop fn size ov t f start idx = chunkLoop fn size ov t g start idx := by
  rw [chunkLoop_fuel_add fn size ov t hsize f g start idx hf,
    chunkLoop_fuel_add fn size ov t hsize g f start idx hg, Nat.add_comm]

/-- The emitted indices are consecutive starting at `idx`. -/
theorem chunkLoop_map_index (fn : List Char) (size ov : Nat) (t : List Char) :
    ∀ (f start idx : Nat),
      (chunkLoop fn size ov t f start idx).map (fun c => c.index) =
        List.range' idx (chunkLoop fn size ov t f start idx).length := by
  intro f
  induction f with
  | zero => intro start idx; rfl
  | succ f ih =>
      intro start idx
      by_cases hstart : start < t.length
      · rw [chunkLoop_cons fn size ov t f start idx hstart]
        by_cases hend : t.length ≤ chunkEnd size t start
        · rw [if_pos hend]
          rfl
        · rw [if_neg hend]
          simp only [List.map_cons, List.length_cons, ih, mkChunk, List.range'_succ]
      · simp only [chunkLoop, if_neg hstart, List.map_nil, List.length_nil, List.range']

/-- A list whose Python-strip is empty contains only whitespace. -/
theorem all_space_of_pyStrip_eq_nil (l : List Char) (h : pyStrip l = []) :
    ∀ c ∈ l, pyIsSpace c = true := by
  intro c hc
  unfold pyStrip at h
  rw [List.reverse_eq_nil_iff] at h
  have hA : ∀ x ∈ (l.dropWhile pyIsSpace).reverse, pyIsSpace x = true :=
    List.dropWhile_eq_nil_iff.mp h
  have hc2 : c ∈ l.takeWhile pyIsSpace ++ l.dropWhile pyIsSpace := by
    rw [List.takeWhile_append_dropWhile]
    exact hc
  rcases List.mem_append.mp hc2 with h2 | h2
  · exact List.mem_takeWhile_imp h2
  · exact hA c (List.mem_reverse.mpr h2)

theorem pyStrip_ne_nil (l : List Char) (c : Char) (hc : c ∈ l)
    (hs : pyIsSpace c = false) : pyStrip l ≠ [] := by
  intro h
  rw [all_space_of_pyStrip_eq_nil l h c hc] at hs
  exact absurd hs (by simp)

theorem mem_chunkLabel : 'C' ∈ chunkLabel 0 ∧ ∀ idx, 'C' ∈ chunkLabel idx := by
  constructor
  · decide
  · intro idx
    unfold chunkLabel
    refine List.mem_append.mpr (Or.inl (List.mem_append.mpr (Or.inl ?_)))
    decide

/-- Every chunk the loop emits carries the literal `Chunk` label in its
text, hence strips to a non-empty string. -/
theorem chunkLoop_text_has_C (fn : List Char) (size ov : Nat) (t : List Char) :
    ∀ (f start idx : Nat) (c : DocumentChunk),
      c ∈ chunkLoop fn size ov t f start idx → 'C' ∈ c.text := by
  intro f
  induction f with
  | zero => intro start idx c hc; simp [chunkLoop] at hc
  | succ f ih =>
      intro start idx c hc
      by_cases hstart : start < t.length
      · rw [chunkLoop_cons fn size ov t f start idx hstart] at hc
        by_cases hend : t.length ≤ chunkEnd size t start
        · rw [if_pos hend] at hc
          have hceq : c = mkChunk fn t idx start (chunkEnd size t start) := by
            simpa using hc
          rw [hceq]
          unfold mkChunk
          exact List.mem_append.mpr
            (Or.inl (List.mem_append.mpr (Or.inr (mem_chunkLabel.2 idx))))
        · rw [if_neg hend] at hc
          rcases List.mem_cons.mp hc with hceq | hmem
          · rw [hceq]
            unfold mkChunk
            exact List.mem_append.mpr
              (Or.inl (List.mem_append.mpr (Or.inr (mem_chunkLabel.2 idx))))
          · exact ih _ _ c hmem
      · simp [chunkLoop, if_neg hstart] at hc

/-- Every chunk the loop emits spans at most `size` characters. -/
theorem chunkLoop_span (fn : List Char) (size ov : Nat) (t : List Char) :
    ∀ (f start idx : Nat) (c : DocumentChunk),
      c ∈ chunkLoop fn size ov t f start idx →
      c.end_char ≤ c.start_char + size ∧ c.end_char ≤ t.length := by
  intro f
  induction f with
  | zero => intro start idx c hc; simp [chunkLoop] at hc
  | succ f ih =>
      intro start idx c hc
      by_cases hstart : start < t.length
      · rw [chunkLoop_cons fn size ov t f start idx hstart] at hc
        have hb := chunkEnd_le size t start
        by_cases hend : t.length ≤ chunkEnd size t start
        · rw [if_pos hend] at hc
          have hceq : c = mkChunk fn t idx start (chunkEnd size t start) := by
            simpa using hc
          rw [hceq]
          exact hb
        · rw [if_neg hend] at hc
          rcases List.mem_cons.mp hc with hceq | hmem
          · rw [hceq]
            exact hb
          · exact ih _ _ c hmem
      · simp [chunkLoop, if_neg hstart] at hc

/-- C6 (confirmed): for `0 < overlap < size` the chunking loop (i) halts
within `length` iterations — any fuel beyond the stripped text's length
yields the same chunk list, because (ii) the next start always advances
strictly (snapping to the chunk's end when `end - overlap` would not
progress); (iii) the emitted chunks carry the contiguous indices
`0..n-1` in emission order; and (iv) every emitted chunk's text is
non-empty after trimming. -/
theorem c6_chunker_terminates_contiguous_nonempty (size ov : Nat) (fn text : List Char)
    (h : 0 < ov ∧ ov < size) :
    (∀ f, (pyStrip text).length ≤ f →
        chunkTextFuel size ov fn text f = chunkText size ov fn text) ∧
    (∀ start, start < (pyStrip text).length →
        start < nextStart ov start (chunkEnd size (pyStrip text) start)) ∧
    (chunkText size ov fn text).map (fun c => c.index) =
      List.range (chunkText size ov fn text).length ∧
    ∀ c ∈ chunkText size ov fn text, pyStrip c.text ≠ [] := by
  have hsize : 1 ≤ size := by omega
  refine ⟨?_, ?_, ?_, ?_⟩
  · intro f hf
    unfold chunkTextFuel chunkText chunkTextFuel
    by_cases hnil : pyStrip text = []
    · simp only [if_pos hnil]
    · simp only [if_neg hnil]
      exact chunkLoop_fuel_eq fn size ov (pyStrip text) hsize f (pyStrip text).length 0 0
        (by omega) (by omega)
  · intro start hstart
    exact (nextStart_progress ov start (chunkEnd size (pyStrip text) start)
      (lt_chunkEnd size (pyStrip text) start hsize hstart)).1
  · unfold chunkText chunkTextFuel
    by_cases hnil : pyStrip text = []
    · simp only [if_pos hnil]
      rfl
    · simp only [if_neg hnil]
      rw [chunkLoop_map_index fn size ov (pyStrip text) (pyStrip text).length 0 0]
      exact (List.range_eq_range' _).symm
  · intro c hc
    unfold chunkText chunkTextFuel at hc
    by_cases hnil : pyStrip text = []
    · rw [if_pos hnil] at hc
      simp at hc
    · rw [if_neg hnil] at hc
      have hC := chunkLoop_text_has_C fn size ov (pyStrip text) (pyStrip text).length 0 0 c hc
      exact pyStrip_ne_nil c.text 'C' hC (by decide)

theorem c6_chunker_terminates_contiguous_nonempty_witness :
    (0 < 50 ∧ 50 < 512) ∧
    ((∀ f, (pyStrip (String.toList "hello world")).length ≤ f →
        chunkTextFuel 512 50 (String.toList "f") (String.toList "hello world") f =
          chunkText 512 50 (String.toList "f") (String.toList "hello world")) ∧
      (∀ start, start < (pyStrip (String.toList "hello world")).length →
          start < nextStart 50 start (chunkEnd 512 (pyStrip (String.toList "hello world")) start)) ∧
      (chunkText 512 50 (String.toList "f") (String.toList "hello world")).map (fun c => c.index) =
        List.range (chunkText 512 50 (String.toList "f") (String.toList "hello world")).length ∧
      ∀ c ∈ chunkText 512 50 (String.toList "f") (String.toList "hello world"),
        pyStrip c.text ≠ []) :=
  ⟨by decide, c6_chunker_terminates_contiguous_nonempty 512 50 (String.toList "f")
    (String.toList "hello world") (by decide)⟩

set_option maxRecDepth 10000

/-- A 1000-character text whose only space sits at offset 2. -/
def txtC7 : List Char := 'a' :: 'b' :: ' ' :: List.replicate 997 'c'

/-- C7 (counterexample to the claim as stated): on this 1000-character
text with `chunk_size = 512`, `chunk_overlap = 50` the chunker emits 4
chunks (not 2 or 3) — word-boundary snapping to the early space shortens
the first chunk — and the stored texts of chunks 1 and 2 are 524 and 525
characters long (the `filename - Chunk i: ` prefix pushes them past
512). -/
theorem c7_counterexample :
    txtC7.length = 1000 ∧
    (chunkText 512 50 (String.toList "f") txtC7).length = 4 ∧
    (chunkText 512 50 (String.toList "f") txtC7).map (fun c => c.text.length) =
      [15, 524, 525, 87] := by decide

/-- C7 (amended, confirmed): chunking any 1000-character text with
`chunk_size = 512`, `chunk_overlap = 50` yields at least two chunks;
every chunk spans at most 512 source characters (`end_char - start_char
≤ 512`, though the stored text adds the `filename - Chunk i: ` prefix);
the first chunk starts at offset 0 and the second chunk's start offset
is at least the first chunk's end offset minus 50. -/
theorem c7_chunk_size_scenario (fn text : List Char)
    (h : (pyStrip text).length = 1000) :
    2 ≤ (chunkText 512 50 fn text).length ∧
    (∀ c ∈ chunkText 512 50 fn text,
        c.end_char - c.start_char ≤ 512 ∧ c.end_char ≤ 1000) ∧
    ∀ c0 c1 rest, chunkText 512 50 fn text = c0 :: c1 :: rest →
      c0.start_char = 0 ∧ c0.end_char ≤ c1.start_char + 50 := by
  have hsize : (1 : Nat) ≤ 512 := by omega
  have hnil : pyStrip text ≠ [] := by
    intro hc
    rw [hc] at h
    simp at h
  have hct : chunkText 512 50 fn text =
      chunkLoop fn 512 50 (pyStrip text) 1000 0 0 := by
    unfold chunkText chunkTextFuel
    rw [if_neg hnil, h]
  have h0 : (0 : Nat) < (pyStrip text).length := by omega
  have he0 := chunkEnd_le 512 (pyStrip text) 0
  have hlt0 := lt_chunkEnd 512 (pyStrip text) 0 hsize h0
  have hend0 : ¬ (pyStrip text).length ≤ chunkEnd 512 (pyStrip text) 0 := by omega
  have hstep : chunkLoop fn 512 50 (pyStrip text) 1000 0 0 =
      mkChunk fn (pyStrip text) 0 0 (chunkEnd 512 (pyStrip text) 0) ::
        chunkLoop fn 512 50 (pyStrip text) 999
          (nextStart 50 0 (chunkEnd 512 (pyStrip text) 0)) 1 := by
    have := chunkLoop_cons fn 512 50 (pyStrip text) 999 0 0 h0
    rw [this, if_neg hend0]
  have hprog := nextStart_progress 50 0 (chunkEnd 512 (pyStrip text) 0) hlt0
  have hns : nextStart 50 0 (chunkEnd 512 (pyStrip text) 0) < (pyStrip text).length := by
    omega
  obtain ⟨c1, tail2, htail, hc1⟩ :=
    chunkLoop_ne_nil fn 512 50 (pyStrip text) 998
      (nextStart 50 0 (chunkEnd 512 (pyStrip text) 0)) 1 hns
  have hfull : chunkText 512 50 fn text =
      mkChunk fn (pyStrip text) 0 0 (chunkEnd 512 (pyStrip text) 0) :: c1 :: tail2 := by
    rw [hct, hstep, htail]
  refine ⟨?_, ?_, ?_⟩
  · rw [hfull]
    simp only [List.length_cons]
    omega
  · intro c hc
    rw [hct] at hc
    have hsp := chunkLoop_span fn 512 50 (pyStrip text) 1000 0 0 c hc
    refine ⟨by omega, by omega⟩
  · intro d0 d1 rest heq
    rw [hfull] at heq
    have hd0 : d0 = mkChunk fn (pyStrip text) 0 0 (chunkEnd 512 (pyStrip text) 0) :=
      (List.cons.injEq _ _ _ _ ▸ heq).1.symm
    have hd1 : d1 = c1 := by
      have h2 := (List.cons.injEq _ _ _ _ ▸ heq).2
      exact ((List.cons.injEq _ _ _ _ ▸ h2).1).symm
    constructor
    · rw [hd0]
      rfl
    · rw [hd0, hd1, hc1]
      show chunkEnd 512 (pyStrip text) 0 ≤ nextStart 50 0 (chunkEnd 512 (pyStrip text) 0) + 50
      omega

theorem c7_chunk_size_scenario_witness :
    (pyStrip (List.replicate 1000 'a')).length = 1000 ∧
    (2 ≤ (chunkText 512 50 (String.toList "f") (List.replicate 1000 'a')).length ∧
      (∀ c ∈ chunkText 512 50 (String.toList "f") (List.replicate 1000 'a'),
          c.end_char - c.start_char ≤ 512 ∧ c.end_char ≤ 1000) ∧
      ∀ c0 c1 rest,
        chunkText 512 50 (String.toList "f") (List.replicate 1000 'a') = c0 :: c1 :: rest →
        c0.start_char = 0 ∧ c0.end_char ≤ c1.start_char + 50) :=
  ⟨by decide, c7_chunk_size_scenario (String.toList "f") (List.replicate 1000 'a') (by decide)⟩

/-! ## Otsu threshold lemmas (C9) -/

theorem cumWeight_succ (hist : Nat → Nat) (k : Nat) :
    cumWeight hist (k + 1) = cumWeight hist k + hist k :=
  Finset.sum_range_succ hist k

theorem cumIntensity_succ (hist : Nat → Nat) (k : Nat) :
    cumIntensity hist (k + 1) = cumIntensity hist k + k * hist k :=
  Finset.sum_range_succ (fun i => i * hist i) k

theorem cumWeight_mono (hist : Nat → Nat) (k m : Nat) (h : k ≤ m) :
    cumWeight hist k ≤ cumWeight hist m :=
  Finset.sum_le_sum_of_subset (Finset.range_subset.mpr h)

theorem betweenVar_nonneg (hist : Nat → Nat) (total sumTotal t : Nat) :
    0 ≤ betweenVar hist total sumTotal t := by
  unfold betweenVar
  by_cases h : cumWeight hist (t + 1) = 0 ∨ total - cumWeight hist (t + 1) = 0
  · simp only [if_pos h]
    exact le_refl _
  · simp only [if_neg h]
    positivity

theorem betweenVar_eq_zero_of_total_le (hist : Nat → Nat) (total sumTotal t : Nat)
    (h : total ≤ cumWeight hist (t + 1)) :
    betweenVar hist total sumTotal t = 0 := by
  unfold betweenVar
  rw [if_pos (Or.inr (Nat.sub_eq_zero_of_le h))]

theorem betweenVar_eq_zero_of_wB_zero (hist : Nat → Nat) (total sumTotal t : Nat)
    (h : cumWeight hist (t + 1) = 0) :
    betweenVar hist total sumTotal t = 0 := by
  unfold betweenVar
  rw [if_pos (Or.inl h)]

/-- The loop invariant of the Otsu scan after the candidates
`0, ..., k - 1` have been processed. -/
def otsuInv (hist : Nat → Nat) (total sumTotal k : Nat) (s : OtsuState) : Prop :=
  0 ≤ s.maxVar ∧
  (s.broken = false → s.wB = cumWeight hist k ∧ s.sumB = cumIntensity hist k) ∧
  (s.broken = true → total ≤ cumWeight hist k) ∧
  (∀ t, t < k → betweenVar hist total sumTotal t ≤ s.maxVar) ∧
  (s.maxVar = 0 ∨ s.maxVar = betweenVar hist total sumTotal s.threshold)

theorem otsuInv_init (hist : Nat → Nat) (total sumTotal : Nat) :
    otsuInv hist total sumTotal 0 otsuInit := by
  refine ⟨le_refl _, fun _ => ⟨rfl, rfl⟩, fun h => by simp [otsuInit] at h, ?_, Or.inl rfl⟩
  intro t ht
  exact absurd ht (Nat.not_lt_zero t)

theorem otsuInv_step (hist : Nat → Nat) (total sumTotal k : Nat) (s : OtsuState)
    (h : otsuInv hist total sumTotal k s) :
    otsuInv hist total sumTotal (k + 1) (otsuStep hist total sumTotal s k) := by
  obtain ⟨hnn, hnotbr, hbr, hlt, hmax⟩ := h
  by_cases hb : s.broken = true
  · simp only [otsuStep, if_pos hb]
    refine ⟨hnn, ?_, ?_, ?_, hmax⟩
    · intro hf
      rw [hf] at hb
      exact absurd hb (by simp)
    · intro _
      exact le_trans (hbr hb) (cumWeight_mono hist k (k + 1) (by omega))
    · intro t ht
      by_cases htk : t < k
      · exact hlt t htk
      · have ht2 : t = k := by omega
        rw [ht2, betweenVar_eq_zero_of_total_le hist total sumTotal k
          (le_trans (hbr hb) (cumWeight_mono hist k (k + 1) (by omega)))]
        exact hnn
  · have hbf : s.broken = false := by
      revert hb
      cases s.broken <;> simp
    have hwb := (hnotbr hbf).1
    have hsb := (hnotbr hbf).2
    simp only [otsuStep, if_neg hb]
    by_cases hc1 : s.wB + hist k = 0
    · rw [if_pos hc1]
      have hw1 : cumWeight hist (k + 1) = 0 := by
        rw [cumWeight_succ, ← hwb]
        exact hc1
      refine ⟨hnn, ?_, ?_, ?_, hmax⟩
      · intro _
        refine ⟨?_, ?_⟩
        · show s.wB + hist k = cumWeight hist (k + 1)
          rw [cumWeight_succ, hwb]
        · show s.sumB = cumIntensity hist (k + 1)
          have hh : hist k = 0 := by omega
          rw [cumIntensity_succ, hh, Nat.mul_zero, Nat.add_zero, hsb]
      · intro hf
        exact absurd (hbf ▸ hf) (by simp)
      · intro t ht
        by_cases htk : t < k
        · exact hlt t htk
        · have ht2 : t = k := by omega
          rw [ht2, betweenVar_eq_zero_of_wB_zero hist total sumTotal k hw1]
          exact hnn
    · rw [if_neg hc1]
      by_cases hc2 : total - (s.wB + hist k) = 0
      · rw [if_pos hc2]
        have hw1 : total ≤ cumWeight hist (k + 1) := by
          rw [cumWeight_succ, ← hwb]
          omega
        refine ⟨hnn, ?_, ?_, ?_, hmax⟩
        · intro hf
          exact absurd hf (by simp)
        · intro _
          exact hw1
        · intro t ht
          by_cases htk : t < k
          · exact hlt t htk
          · have ht2 : t = k := by omega
            rw [ht2, betweenVar_eq_zero_of_total_le hist total sumTotal k hw1]
            exact hnn
      · rw [if_neg hc2]
        have hwb1 : s.wB + hist k = cumWeight hist (k + 1) := by
          rw [cumWeight_succ, hwb]
        have hsb1 : s.sumB + k * hist k = cumIntensity hist (k + 1) := by
          rw [cumIntensity_succ, hsb]
        have hveq : ((s.wB + hist k : ℕ) : ℚ) * ((total - (s.wB + hist k) : ℕ) : ℚ) *
              (((s.sumB + k * hist k : ℕ) : ℚ) / ((s.wB + hist k : ℕ) : ℚ) -
                ((sumTotal : ℚ) - ((s.sumB + k * hist k : ℕ) : ℚ)) /
                  ((total - (s.wB + hist k) : ℕ) : ℚ)) ^ 2 =
            betweenVar hist total sumTotal k := by
          unfold betweenVar
          rw [if_neg (by rw [← hwb1]; push_neg; exact ⟨hc1, hc2⟩)]
          rw [← hwb1, ← hsb1]
        by_cases hv : s.maxVar < ((s.wB + hist k : ℕ) : ℚ) *
            ((total - (s.wB + hist k) : ℕ) : ℚ) *
            (((s.sumB + k * hist k : ℕ) : ℚ) / ((s.wB + hist k : ℕ) : ℚ) -
              ((sumTotal : ℚ) - ((s.sumB + k * hist k : ℕ) : ℚ)) /
                ((total - (s.wB + hist k) : ℕ) : ℚ)) ^ 2
        · rw [if_pos hv]
          refine ⟨?_, ?_, ?_, ?_, ?_⟩
          · show (0 : ℚ) ≤ _
            rw [hveq]
            exact betweenVar_nonneg hist total sumTotal k
          · intro _
            exact ⟨hwb1, hsb1⟩
          · intro hf
            exact absurd hf (by simp)
          · intro t ht
            by_cases htk : t < k
            · exact le_trans (hlt t htk) (le_of_lt hv)
            · have ht2 : t = k := by omega
              rw [ht2]
              show betweenVar hist total sumTotal k ≤ _
              rw [hveq]
          · right
            show _ = betweenVar hist total sumTotal k
            rw [hveq]
        · rw [if_neg hv]
          refine ⟨hnn, ?_, ?_, ?_, hmax⟩
          · intro _
            exact ⟨hwb1, hsb1⟩
          · intro hf
            exact absurd hf (by simp)
          · intro t ht
            by_cases htk : t < k
            · exact hlt t htk
            · have ht2 : t = k := by omega
              rw [ht2, ← hveq]
              exact not_lt.mp hv

theorem otsuFold_inv (hist : Nat → Nat) (total sumTotal : Nat) :
    otsuInv hist total sumTotal 256 (otsuFold hist total sumTotal) := by
  have hgen : ∀ k, otsuInv hist total sumTotal k
      ((List.range k).foldl (otsuStep hist total sumTotal) otsuInit) := by
    intro k
    induction k with
    | zero => exact otsuInv_init hist total sumTotal
    | succ k ih =>
        rw [List.range_succ, List.foldl_append, List.foldl_cons, List.foldl_nil]
        exact otsuInv_step hist total sumTotal k _ ih
  exact hgen 256

theorem binarize_mem (img : List Nat) (θ : Nat) (v : Nat) (h : v ∈ binarize img θ) :
    v = 0 ∨ v = 255 := by
  obtain ⟨w, _, hw⟩ := List.mem_map.mp h
  by_cases hc : θ < w
  · right
    rw [← hw, if_pos hc]
  · left
    rw [← hw, if_neg hc]

theorem invert_counts (l : List Nat) (h : ∀ v ∈ l, v = 0 ∨ v = 255) :
    countVal (l.map (fun v => 255 - v)) 255 = countVal l 0 ∧
    countVal (l.map (fun v => 255 - v)) 0 = countVal l 255 := by
  induction l with
  | nil => exact ⟨rfl, rfl⟩
  | cons x xs ih =>
      have ihh := ih (fun v hv => h v (List.mem_cons_of_mem _ hv))
      rcases h x (List.mem_cons_self _ _) with hx | hx
      · subst hx
        simp only [List.map_cons, countVal, List.filter_cons]
        norm_num
        exact ⟨ihh.1, ihh.2⟩
      · subst hx
        simp only [List.map_cons, countVal, List.filter_cons]
        norm_num
        exact ⟨ihh.1, ihh.2⟩

/-- C9 (confirmed): the threshold the preprocessor computes maximises the
inter-class variance between the below-threshold and above-threshold
pixel populations of the 256-bin histogram (in the code's own exact
arithmetic, modelled over `ℚ`), and after the conditional inversion the
binary image always has at least as many white (255) pixels as black
(0) pixels. -/
theorem c9_otsu_binarization (img : List Nat) :
    (∀ t, t < 256 →
        betweenVar (histCount img) img.length (cumIntensity (histCount img) 256) t ≤
          betweenVar (histCount img) img.length (cumIntensity (histCount img) 256)
            (otsuThreshold img)) ∧
    countVal (otsuBinaryImage img) 0 ≤ countVal (otsuBinaryImage img) 255 := by
  constructor
  · intro t ht
    obtain ⟨hnn, _, _, hlt, hmax⟩ :=
      otsuFold_inv (histCount img) img.length (cumIntensity (histCount img) 256)
    rcases hmax with hmax | hmax
    · exact le_trans (hmax ▸ hlt t ht)
        (betweenVar_nonneg (histCount img) img.length (cumIntensity (histCount img) 256) _)
    · exact le_trans (hlt t ht) (le_of_eq hmax)
  · unfold otsuBinaryImage ensureDarkOnLight
    have hmem := binarize_mem img (otsuThreshold img)
    by_cases hc : countVal (binarize img (otsuThreshold img)) 255 <
        countVal (binarize img (otsuThreshold img)) 0
    · rw [if_pos hc]
      obtain ⟨h1, h2⟩ := invert_counts (binarize img (otsuThreshold img)) hmem
      rw [h1, h2]
      exact le_of_lt hc
    · rw [if_neg hc]
      exact Nat.not_lt.mp hc

/-- A bimodal test image for the binarisation theorem. -/
def imgW9 : List Nat := [0, 0, 255, 255, 10]

theorem c9_otsu_binarization_witness :
    (∀ t, t < 256 →
        betweenVar (histCount imgW9) imgW9.length (cumIntensity (histCount imgW9) 256) t ≤
          betweenVar (histCount imgW9) imgW9.length (cumIntensity (histCount imgW9) 256)
            (otsuThreshold imgW9)) ∧
    countVal (otsuBinaryImage imgW9) 0 ≤ countVal (otsuBinaryImage imgW9) 255 :=
  c9_otsu_binarization imgW9
